import Mathlib

/-!
Verification development for the build-embeddings synchronizer
(src/build_embeddings.py).

The script scans a source tree for markdown documents, keeps one JSON
artifact per document in an output tree (fields: embeddings, shasum,
headline), skips documents whose stored shasum matches the current
content hash, and deletes orphaned artifacts, pruning directories that
became empty.

Shallow embedding conventions:
- A path relative to a root is a list of components; the last component
  of a file path is its filename.  The empty list is the root itself.
- File contents of source documents are strings (the decoded text; the
  universal-newline translation of carriage returns is not modelled, so
  statements about headlines are faithful for contents without CR).
- A persisted artifact is modelled as parsed data: FileData.json v means
  the bytes parse as JSON value v (duplicate object keys are already
  collapsed, as json.load does), FileData.text r means the bytes do not
  parse as JSON.
- The SHA-256 hex digest and the embedding model are opaque collaborators
  of the sync core; they are parameters of the environment (Env.hash,
  Env.embed).  The sync engine only compares hash values for equality and
  stores vectors verbatim, so nothing here depends on their internals.
- Failures of mkdir / open-for-write / rmdir are driven by oracles
  (Env.mkdirFails, Env.writeFails, and the rmdirFails argument of run),
  mirroring where OSError can be raised; an oracle that is constantly
  false models a failure-free filesystem.
- Python exceptions are values of PyErr; an uncaught exception aborts the
  run (RunOutcome.crashed), exactly where the script has no handler.
-/

namespace BuildEmb

/-- A path relative to a root directory: the list of its components. -/
abbrev Path := List String

/-- Parsed JSON values, as returned by json.load (object keys deduplicated). -/
inductive Json where
  | null : Json
  | bool (b : Bool) : Json
  | num (n : Int) : Json
  | str (s : String) : Json
  | arr (xs : List Json) : Json
  | obj (fields : List (String × Json)) : Json

/-- Bytes of a file in the output tree: either bytes that parse as a JSON
value, or bytes that do not parse (json.load raises JSONDecodeError). -/
inductive FileData where
  | text (raw : String) : FileData
  | json (v : Json) : FileData

/-- Python exceptions relevant to the script.  attributeError is the
uncaught error raised by calling .get on a non-dict json.load result;
osError covers IsADirectoryError, FileNotFoundError, FileExistsError and
PermissionError raised by filesystem calls. -/
inductive PyErr where
  | attributeError : PyErr
  | osError : PyErr
deriving DecidableEq

/-- The filesystem as the run sees it: the source tree (documents and
directories under docs_dir) and the output tree (files and directories
under embeddings_dir).  outDirs lists the directories that exist, with
[] standing for embeddings_dir itself. -/
structure FS where
  srcExists : Bool
  srcFiles : List (Path × String)
  srcDirs : List Path
  outFiles : List (Path × FileData)
  outDirs : List Path

/-- The collaborators and failure oracles of a run: the content hash
(calculate_shasum), the embedding provider (generate_embedding), the
provider identifier (model_name), and the oracles deciding which mkdir
and which artifact write fail with OSError. -/
structure Env where
  hash : String → String
  embed : String → List Int
  modelName : String
  mkdirFails : Path → Bool
  writeFails : Path → Bool

/-- Observable result of a run: final filesystem, the processed and
skipped counters, and the logs of artifact writes and orphan deletions. -/
structure RunReport where
  fs : FS
  processed : Nat
  skipped : Nat
  writes : List Path
  deletes : List Path

/-- How an invocation of run ends: early return because the source root
is missing, abort by an uncaught exception, or normal completion. -/
inductive RunOutcome where
  | srcMissing (fs : FS) : RunOutcome
  | crashed (e : PyErr) (r : RunReport) : RunOutcome
  | done (r : RunReport) : RunOutcome

/-! ## String helpers (pathlib stem, str.strip, readline) -/

/-- Index of the last dot of a component name (str.rfind for a dot). -/
def rfindDot : List Char → Option Nat
  | [] => none
  | c :: cs =>
    match rfindDot cs with
    | some i => some (i + 1)
    | none => if c = '.' then some 0 else none

/-- pathlib PurePath.stem: the final component without its last suffix.
The suffix is name[i:] for the last dot index i when 0 < i < len - 1,
otherwise empty (so a bare dotfile such as .md has no suffix). -/
def pyStem (name : String) : String :=
  match rfindDot name.data with
  | some i =>
    if 0 < i ∧ i < name.data.length - 1 then String.mk (name.data.take i) else name
  | none => name

/-- ASCII whitespace stripped by str.strip. -/
def isPySpace (c : Char) : Bool :=
  c = ' ' || c = '\t' || c = '\n' || c = '\x0d' || c = '\x0b' || c = '\x0c'

/-- str.strip: remove leading and trailing whitespace. -/
def pyStrip (s : String) : String :=
  String.mk (((s.data.dropWhile isPySpace).reverse.dropWhile isPySpace).reverse)

/-- The first line of a file, as f.readline returns it without the
terminating newline (contents without carriage returns). -/
def firstLine (s : String) : String :=
  String.mk (s.data.takeWhile (fun c => !(c = '\n')))

/-- name.endswith suffix, on raw characters. -/
def endsWithList (l suf : List Char) : Bool :=
  decide (l.drop (l.length - suf.length) = suf)

/-- name.endswith suffix for strings. -/
def strEndsWith (s suf : String) : Bool :=
  endsWithList s.data suf.data

/-- Does this relative path name a *.json entry (the rglob filter of the
orphan scan)?  The root itself has no name and never matches. -/
def jsonName (p : Path) : Bool :=
  match p.getLast? with
  | some n => strEndsWith n ".json"
  | none => false

/-- Does this relative path name a *.md entry (the rglob filter of the
document scan)? -/
def mdName (p : Path) : Bool :=
  match p.getLast? with
  | some n => strEndsWith n ".md"
  | none => false

/-! ## Association-list primitives for the two trees -/

/-- Look a path up in a file listing (first match). -/
def alookup {α : Type} : List (Path × α) → Path → Option α
  | [], _ => none
  | q :: l, p => if q.1 = p then some q.2 else alookup l p

/-- Remove every entry at a path from a file listing. -/
def removeFile : List (Path × FileData) → Path → List (Path × FileData)
  | [], _ => []
  | q :: l, p => if q.1 = p then removeFile l p else q :: removeFile l p

/-- Overwrite (or create) the file at a path. -/
def setFile (l : List (Path × FileData)) (p : Path) (v : FileData) :
    List (Path × FileData) :=
  (p, v) :: removeFile l p

/-- Does a file exist at this path in the output tree? -/
def isFile (fs : FS) (p : Path) : Bool :=
  (alookup fs.outFiles p).isSome

/-- Does a directory exist at this path in the output tree? -/
def isDir (fs : FS) (p : Path) : Bool :=
  decide (p ∈ fs.outDirs)

/-- Write a file at a path in the output tree. -/
def writeArtifact (fs : FS) (p : Path) (v : FileData) : FS :=
  { fs with outFiles := setFile fs.outFiles p v }

/-! ## Path mapping and discovery -/

/-- get_embedding_path: same relative directory, pathlib stem of the
filename, fixed .json extension. -/
def artifactPath (p : Path) : Path :=
  p.dropLast ++ [pyStem (p.getLast?.getD "") ++ ".json"]

/-- The artifact paths of the discovered documents (the set
md_relative_paths of find_orphaned_embeddings). -/
def imagePaths (docs : List Path) : List Path :=
  docs.map artifactPath

/-- find_all_markdown_files: docs_dir.rglob matches every entry, file or
directory, whose final component ends in .md (pathlib glob does not
special-case dotfiles). -/
def discover (fs : FS) : List Path :=
  (fs.srcFiles.map (fun q => q.1) ++ fs.srcDirs).filter mdName

/-! ## Staleness check (should_process_file) -/

/-- Compare the json.load result of dict.get against a Python string:
equal exactly when the stored value is that string. -/
def pyEqStr : Option Json → String → Bool
  | some (Json.str s), t => decide (s = t)
  | _, _ => false

/-- Field access on a parsed JSON object (dict.get). -/
def objGet : List (String × Json) → String → Option Json
  | [], _ => none
  | q :: l, k => if q.1 = k then some q.2 else objGet l k

/-- should_process_file.  Returns .ok true when the document must be
processed, .ok false when it is skipped.  JSONDecodeError, KeyError and
IOError are caught and force processing; calling .get on a json.load
result that is not a dict raises AttributeError, which has no handler
here and propagates (.error). -/
def shouldProcess (env : Env) (fs : FS) (mdPath epath : Path) : Except PyErr Bool :=
  if !(isFile fs epath || isDir fs epath) then .ok true
  else if isDir fs epath then .ok true
  else
    match alookup fs.outFiles epath with
    | none => .ok true
    | some (FileData.text _) => .ok true
    | some (FileData.json v) =>
      match alookup fs.srcFiles mdPath with
      | none => .ok true
      | some c =>
        match v with
        | Json.obj fields => .ok (!(pyEqStr (objGet fields "shasum") (env.hash c)))
        | _ => .error PyErr.attributeError

/-! ## Persisting an artifact (process_markdown_file) -/

/-- One mkdir call with exist_ok semantics: an existing directory is
fine, a file in the way or an oracle failure raises OSError.  A raised
error carries the unchanged state (one mkdir call is atomic). -/
def mkdirOne (env : Env) (fs : FS) (d : Path) : Except (PyErr × FS) FS :=
  if isDir fs d then .ok fs
  else if (alookup fs.outFiles d).isSome then .error (PyErr.osError, fs)
  else if env.mkdirFails d then .error (PyErr.osError, fs)
  else .ok { fs with outDirs := d :: fs.outDirs }

/-- Create every directory of a list in order (ancestors first).  On
failure the directories already created persist in the carried state. -/
def mkdirEach (env : Env) : List Path → FS → Except (PyErr × FS) FS
  | [], fs => .ok fs
  | d :: rest, fs =>
    match mkdirOne env fs d with
    | .error E => .error E
    | .ok fs₁ => mkdirEach env rest fs₁

/-- All prefixes of a directory path, shortest first ([] is the root). -/
def prefixesOf (d : Path) : List Path :=
  (List.range (d.length + 1)).map (fun k => d.take k)

/-- mkdir(parents=True, exist_ok=True) on a directory path. -/
def mkdirParents (env : Env) (fs : FS) (d : Path) : Except (PyErr × FS) FS :=
  mkdirEach env (prefixesOf d) fs

/-- The JSON artifact process_markdown_file assembles for a document. -/
def artifactJson (env : Env) (content : String) : Json :=
  Json.obj
    [("embeddings", Json.obj [(env.modelName, Json.arr ((env.embed content).map Json.num))]),
     ("shasum", Json.str (env.hash content)),
     ("headline", Json.str (pyStrip (firstLine content)))]

/-- process_markdown_file: read the document (a directory in its place
raises IsADirectoryError), assemble the artifact, create the parent
directories, and write the artifact file (a directory at the artifact
path or a write-oracle failure raises OSError).  Returns the new
filesystem and the written path. -/
def processDoc (env : Env) (fs : FS) (mdPath : Path) : Except (PyErr × FS) (FS × Path) :=
  match alookup fs.srcFiles mdPath with
  | none => .error (PyErr.osError, fs)
  | some content =>
    let epath := artifactPath mdPath
    match mkdirParents env fs epath.dropLast with
    | .error E => .error E
    | .ok fs₁ =>
      if env.writeFails epath then .error (PyErr.osError, fs₁)
      else if isDir fs₁ epath then .error (PyErr.osError, fs₁)
      else .ok (writeArtifact fs₁ epath (FileData.json (artifactJson env content)), epath)

/-- The per-document loop of run.  An exception from the staleness check
or from processing propagates and carries the state reached so far. -/
def processLoop (env : Env) :
    List Path → FS → Nat → Nat → List Path →
    Except (PyErr × FS × Nat × Nat × List Path) (FS × Nat × Nat × List Path)
  | [], fs, pr, sk, ws => .ok (fs, pr, sk, ws)
  | p :: rest, fs, pr, sk, ws =>
    match shouldProcess env fs p (artifactPath p) with
    | .error e => .error (e, fs, pr, sk, ws)
    | .ok false => processLoop env rest fs pr (sk + 1) ws
    | .ok true =>
      match processDoc env fs p with
      | .error (e, fsE) => .error (e, fsE, pr, sk, ws)
      | .ok (fs₁, w) => processLoop env rest fs₁ (pr + 1) sk (ws ++ [w])

/-! ## Orphan cleanup -/

/-- Does the directory have any entry (file or subdirectory) directly
inside it?  This is what any(parent.iterdir()) observes. -/
def hasChildEntry (fs : FS) (d : Path) : Bool :=
  fs.outFiles.any (fun q => q.1.length = d.length + 1 && decide (q.1.dropLast = d)) ||
  fs.outDirs.any (fun e => e.length = d.length + 1 && decide (e.dropLast = d))

/-- Remove a directory from the output tree. -/
def rmDir (fs : FS) (d : Path) : FS :=
  { fs with outDirs := fs.outDirs.filter (fun e => !(decide (e = d))) }

/-- The upward pruning loop of delete_orphaned_embeddings: while the
current directory is not the output root, stop on an OSError (oracle) or
on a non-empty directory, otherwise remove it and ascend.  Fuel is the
component count of the starting directory, which bounds the ascent. -/
def pruneLoop (rmdirFails : Path → Bool) : Nat → FS → Path → FS
  | 0, fs, _ => fs
  | fuel + 1, fs, d =>
    if d = [] then fs
    else if rmdirFails d then fs
    else if hasChildEntry fs d then fs
    else pruneLoop rmdirFails fuel (rmDir fs d) d.dropLast

/-- Prune empty directories upward from a directory. -/
def pruneUp (rmdirFails : Path → Bool) (fs : FS) (d : Path) : FS :=
  pruneLoop rmdirFails d.length fs d

/-- The state left by removing the file at a path. -/
def unlinkState (fs : FS) (p : Path) : FS :=
  { fs with outFiles := removeFile fs.outFiles p }

/-- Path.unlink: removing a directory raises IsADirectoryError, removing
a missing path raises FileNotFoundError; both are uncaught here. -/
def unlinkFile (fs : FS) (p : Path) : Except PyErr FS :=
  if isDir fs p then .error PyErr.osError
  else if isFile fs p then .ok (unlinkState fs p)
  else .error PyErr.osError

/-- delete_orphaned_embeddings: unlink each orphan and prune its parent
chain.  An unlink failure propagates with the state and the deletions
performed so far. -/
def deleteOrphans (rmdirFails : Path → Bool) :
    List Path → FS → Except (PyErr × FS × List Path) (FS × List Path)
  | [], fs => .ok (fs, [])
  | p :: rest, fs =>
    match unlinkFile fs p with
    | .error e => .error (e, fs, [])
    | .ok fs₁ =>
      let fs₂ := pruneUp rmdirFails fs₁ p.dropLast
      match deleteOrphans rmdirFails rest fs₂ with
      | .error (e, fs₃, ds) => .error (e, fs₃, p :: ds)
      | .ok (fs₃, ds) => .ok (fs₃, p :: ds)

/-- find_orphaned_embeddings: every entry of the output tree (file or
directory) matching rglob *.json whose relative path is not an artifact
path of a discovered document. -/
def findOrphans (fs : FS) (image : List Path) : List Path :=
  if isDir fs [] then
    (fs.outFiles.map (fun q => q.1) ++ fs.outDirs).filter
      (fun p => jsonName p && !(decide (p ∈ image)))
  else []

/-! ## The run -/

/-- EmbeddingBuilder.run: bail out if the source root is missing, create
the output root, discover documents, process or skip each, then delete
orphans.  rmdirFails is the oracle for OSError inside the pruning loop
(the one place the script catches OSError). -/
def run (env : Env) (rmdirFails : Path → Bool) (fs : FS) : RunOutcome :=
  if !fs.srcExists then .srcMissing fs
  else
    match mkdirParents env fs [] with
    | .error (e, fsE) => .crashed e ⟨fsE, 0, 0, [], []⟩
    | .ok fs₀ =>
      let docs := discover fs₀
      match processLoop env docs fs₀ 0 0 [] with
      | .error (e, fs₁, pr, sk, ws) => .crashed e ⟨fs₁, pr, sk, ws, []⟩
      | .ok (fs₁, pr, sk, ws) =>
        let orphans := findOrphans fs₁ (imagePaths docs)
        match deleteOrphans rmdirFails orphans fs₁ with
        | .error (e, fs₂, ds) => .crashed e ⟨fs₂, pr, sk, ws, ds⟩
        | .ok (fs₂, ds) => .done ⟨fs₂, pr, sk, ws, ds⟩

/-- The filesystem state an outcome leaves behind. -/
def stateOf : RunOutcome → FS
  | RunOutcome.srcMissing fs => fs
  | RunOutcome.crashed _ r => r.fs
  | RunOutcome.done r => r.fs

/-- The orphan deletions an outcome performed. -/
def deletesOf : RunOutcome → List Path
  | RunOutcome.srcMissing _ => []
  | RunOutcome.crashed _ r => r.deletes
  | RunOutcome.done r => r.deletes

/-- The artifact writes an outcome performed. -/
def writesOf : RunOutcome → List Path
  | RunOutcome.srcMissing _ => []
  | RunOutcome.crashed _ r => r.writes
  | RunOutcome.done r => r.writes

/-! ## Well-formed output trees -/

/-- File paths of the output tree are nonempty (a file is not the root). -/
def filesNE (fs : FS) : Prop :=
  ∀ p ∈ fs.outFiles.map (fun q => q.1), p ≠ []

/-- Every strict prefix of an output file path is an existing directory. -/
def filesAnc (fs : FS) : Prop :=
  ∀ p ∈ fs.outFiles.map (fun q => q.1), ∀ k, k < p.length → p.take k ∈ fs.outDirs

/-- No output path is both a file and a directory. -/
def notBoth (fs : FS) : Prop :=
  ∀ p ∈ fs.outFiles.map (fun q => q.1), p ∉ fs.outDirs

/-- The output directory set is closed under prefixes. -/
def dirsClosed (fs : FS) : Prop :=
  ∀ e ∈ fs.outDirs, ∀ j, j ≤ e.length → e.take j ∈ fs.outDirs

/-- A well-formed output tree. -/
def WF (fs : FS) : Prop :=
  filesNE fs ∧ filesAnc fs ∧ notBoth fs ∧ dirsClosed fs

instance : DecidablePred filesNE := fun fs => by
  unfold filesNE
  infer_instance

instance : DecidablePred filesAnc := fun fs => by
  unfold filesAnc
  infer_instance

instance : DecidablePred notBoth := fun fs => by
  unfold notBoth
  infer_instance

instance : DecidablePred dirsClosed := fun fs => by
  unfold dirsClosed
  infer_instance

instance : DecidablePred WF := fun fs => by
  unfold WF
  infer_instance

/-- The state carried by a possibly-failed mkdir sequence. -/
def eachFS : Except (PyErr × FS) FS → FS
  | .error E => E.2
  | .ok f => f

/-- The state carried by a possibly-failed document processing. -/
def procFS : Except (PyErr × FS) (FS × Path) → FS
  | .error E => E.2
  | .ok q => q.1

/-- The state carried by the processing loop, completed or aborted. -/
def loopFS : Except (PyErr × FS × Nat × Nat × List Path) (FS × Nat × Nat × List Path) → FS
  | .error E => E.2.1
  | .ok q => q.1

/-- The state carried by the deletion phase, completed or aborted. -/
def delFS : Except (PyErr × FS × List Path) (FS × List Path) → FS
  | .error E => E.2.1
  | .ok q => q.1

/-- The deletion log of the deletion phase, completed or aborted. -/
def delDS : Except (PyErr × FS × List Path) (FS × List Path) → List Path
  | .error E => E.2.2
  | .ok q => q.2

/-- The observable effects of a run, ignoring the output directory set:
outcome kind, exception, output files, counters, writes and deletes. -/
structure RunObs where
  tag : Nat
  err : Option PyErr
  files : List (Path × FileData)
  processed : Nat
  skipped : Nat
  writes : List Path
  deletes : List Path

/-- Project a run outcome to its observable effects. -/
def obsOf : RunOutcome → RunObs
  | RunOutcome.srcMissing fs => ⟨0, none, fs.outFiles, 0, 0, [], []⟩
  | RunOutcome.crashed e r => ⟨1, some e, r.fs.outFiles, r.processed, r.skipped, r.writes, r.deletes⟩
  | RunOutcome.done r => ⟨2, none, r.fs.outFiles, r.processed, r.skipped, r.writes, r.deletes⟩

/-- The observable effects of the deletion phase: exception if any,
output files, deletion log. -/
def delObs : Except (PyErr × FS × List Path) (FS × List Path) →
    Option PyErr × List (Path × FileData) × List Path
  | .error (e, f, ds) => (some e, f.outFiles, ds)
  | .ok (f, ds) => (none, f.outFiles, ds)

/-! ## Concrete fixtures used by counterexamples and witnesses -/

/-- A failure-free environment with the identity as content hash (the
claims under test never depend on the digest algorithm, only on hash
values of distinct contents being comparable). -/
def envId : Env := ⟨fun s => s, fun _ => [1], "intfloat/multilingual-e5-large", fun _ => false, fun _ => false⟩

/-- The rmdir oracle of a failure-free filesystem. -/
def rfNone : Path → Bool := fun _ => false

/-- Fixture for C1: a document whose artifact file holds the JSON array
[] (valid JSON, not an object). -/
def fsC1 : FS :=
  ⟨true, [(["x.md"], "hello")], [], [(["x.json"], FileData.json (Json.arr []))], [[]]⟩

/-- Fixture for C2: a document whose artifact file holds a JSON string
(valid JSON, not an object). -/
def fsC2 : FS :=
  ⟨true, [(["y.md"], "content")], [], [(["y.json"], FileData.json (Json.str "oops"))], [[]]⟩

/-- Fixture for C6: a source tree holding the two documents .md and
.md.md in the same directory. -/
def fsC6 : FS := ⟨true, [([".md"], "a"), ([".md.md"], "b")], [], [], []⟩

/-- Fixture for the C7 witness: a missing source root next to an output
tree holding one artifact. -/
def fsC7 : FS := ⟨false, [(["a.md"], "1")], [], [(["a.json"], FileData.text "t")], [[]]⟩

/-- Fixture for the C6 witness: two ordinary documents. -/
def fsC6W : FS := ⟨true, [(["a.md"], "1"), (["b.md"], "2")], [], [], []⟩

/-- Fixture for C10: a document whose artifact file holds a JSON number,
so the staleness check raises and the loop never classifies the
document. -/
def fsC10 : FS :=
  ⟨true, [(["z.md"], "zz")], [], [(["z.json"], FileData.json (Json.num 7))], [[]]⟩

/-- Fixture for the C10 witness: one up-to-date document (the identity
hash of the content is stored in the artifact). -/
def fsC10W : FS :=
  ⟨true, [(["a.md"], "x")], [], [(["a.json"], FileData.json (Json.obj [("shasum", Json.str "x")]))], [[]]⟩

/-- Environment for C5: the write of the artifact a.json fails. -/
def envC5 : Env :=
  ⟨fun s => s, fun _ => [1], "m", fun _ => false, fun p => decide (p = ["a.json"])⟩

/-- Fixture for C5: two documents, the first of which cannot be
persisted. -/
def fsC5 : FS := ⟨true, [(["a.md"], "1"), (["b.md"], "2")], [], [], []⟩

/-- The state fsC5 reaches after the output root is created. -/
def fsC5r : FS := ⟨true, [(["a.md"], "1"), (["b.md"], "2")], [], [], [[]]⟩

/-- Fixture for the C8 witness: one two-line document over an existing
output root. -/
def fsC8 : FS := ⟨true, [(["h.md"], "Hello\nWorld")], [], [], [[]]⟩

/-- Fixture for the C9 witness: a non-json file beside an orphaned
artifact. -/
def fsC9 : FS :=
  ⟨true, [], [], [(["notes.txt"], FileData.text "keep"), (["stale.json"], FileData.text "x")], [[]]⟩

/-- Fixture for the C3 counterexample: the colliding documents .md and
.md.md with different contents. -/
def fsC3 : FS := ⟨true, [([".md"], "one"), ([".md.md"], "two")], [], [], []⟩

/-- Fixture for the C3 witness: one ordinary document. -/
def fsC3W : FS := ⟨true, [(["w.md"], "hi")], [], [], []⟩

/-- The report of the first run over fsC3W. -/
def rC3W : RunReport :=
  ⟨⟨true, [(["w.md"], "hi")], [], [(["w.json"], FileData.json (artifactJson envId "hi"))], [[]]⟩,
    1, 0, [["w.json"]], []⟩

/-- Fixture for the C4 witness: an orphaned artifact at the output root. -/
def fsC4W : FS := ⟨true, [], [], [(["old.json"], FileData.text "x")], [[]]⟩

/-- The report of the run over fsC4W. -/
def rC4W : RunReport := ⟨⟨true, [], [], [], [[]]⟩, 0, 0, [], [["old.json"]]⟩

/-- The state fsC8 reaches once its document is processed. -/
def fsC8r : FS :=
  ⟨true, [(["h.md"], "Hello\nWorld")], [],
    [(["h.json"], FileData.json (artifactJson envId "Hello\nWorld"))], [[]]⟩

end BuildEmb

namespace BuildEmb

/-! ## Association list lemmas -/

theorem alookup_removeFile_self {l : List (Path × FileData)} {p : Path} :
    alookup (removeFile l p) p = none := by
  induction l with
  | nil => rfl
  | cons a l ih =>
    simp only [removeFile]
    by_cases ha : a.1 = p
    · rw [if_pos ha]
      exact ih
    · rw [if_neg ha]
      simp only [alookup]
      rw [if_neg ha]
      exact ih

theorem alookup_removeFile_ne {l : List (Path × FileData)} {p q : Path} (h : q ≠ p) :
    alookup (removeFile l p) q = alookup l q := by
  induction l with
  | nil => rfl
  | cons a l ih =>
    simp only [removeFile, alookup]
    by_cases ha : a.1 = p
    · have haq : ¬a.1 = q := by
        rw [ha]
        exact Ne.symm h
      rw [if_pos ha, if_neg haq]
      exact ih
    · rw [if_neg ha]
      by_cases haq : a.1 = q
      · simp only [alookup]
        rw [if_pos haq, if_pos haq]
      · simp only [alookup]
        rw [if_neg haq, if_neg haq]
        exact ih

theorem alookup_setFile_self {l : List (Path × FileData)} {p : Path} {v : FileData} :
    alookup (setFile l p v) p = some v := by
  simp [setFile, alookup]

theorem alookup_setFile_ne {l : List (Path × FileData)} {p q : Path} {v : FileData}
    (h : q ≠ p) : alookup (setFile l p v) q = alookup l q := by
  simp only [setFile, alookup]
  rw [if_neg (Ne.symm h)]
  exact alookup_removeFile_ne h

theorem alookup_isSome_iff {α : Type} {l : List (Path × α)} {p : Path} :
    (alookup l p).isSome = true ↔ p ∈ l.map (fun q => q.1) := by
  induction l with
  | nil =>
    simp only [alookup]
    simp
  | cons a l ih =>
    simp only [alookup, List.map_cons, List.mem_cons]
    by_cases h : a.1 = p
    · rw [if_pos h]
      exact ⟨fun _ => Or.inl h.symm, fun _ => rfl⟩
    · rw [if_neg h]
      rw [ih]
      constructor
      · exact fun hm => Or.inr hm
      · intro hm
        rcases hm with hm | hm
        · exact absurd hm.symm h
        · exact hm

theorem alookup_eq_none_iff {α : Type} {l : List (Path × α)} {p : Path} :
    alookup l p = none ↔ p ∉ l.map (fun q => q.1) := by
  rw [← @alookup_isSome_iff α l p]
  cases alookup l p <;> simp

theorem mem_keys_setFile {l : List (Path × FileData)} {p q : Path} {v : FileData} :
    q ∈ (setFile l p v).map (fun a => a.1) → q = p ∨ q ∈ l.map (fun a => a.1) := by
  intro hq
  by_cases h : q = p
  · exact Or.inl h
  · refine Or.inr ?_
    rw [← alookup_isSome_iff] at hq ⊢
    rwa [alookup_setFile_ne h] at hq

theorem mem_keys_removeFile {l : List (Path × FileData)} {p q : Path} :
    q ∈ (removeFile l p).map (fun a => a.1) → q ∈ l.map (fun a => a.1) ∧ q ≠ p := by
  intro hq
  rw [← alookup_isSome_iff] at hq
  by_cases h : q = p
  · rw [h, alookup_removeFile_self] at hq
    simp at hq
  · rw [alookup_removeFile_ne h] at hq
    exact ⟨alookup_isSome_iff.mp hq, h⟩

/-! ## Path prefix lemmas -/

theorem dropLast_take_succ {l : Path} {k : Nat} (h : k < l.length) :
    (l.take (k + 1)).dropLast = l.take k := by
  rw [List.dropLast_eq_take, List.length_take, List.take_take]
  congr 1
  omega

theorem dropLast_append_single {l : Path} {a : String} : (l ++ [a]).dropLast = l := by
  simp

theorem getLast?_append_single {l : Path} {a : String} : (l ++ [a]).getLast? = some a := by
  simp

/-! ## C7: missing source root -/

/-- C7: if the source root does not exist when a run starts, the run
returns immediately with the srcMissing report and the filesystem
untouched: no writes, no deletes, and the output root is not created. -/
theorem srcMissing_run_is_noop (env : Env) (rf : Path → Bool) (fs : FS)
    (h : fs.srcExists = false) : run env rf fs = RunOutcome.srcMissing fs := by
  simp [run, h]

/-- Witness for C7 at a concrete filesystem. -/
theorem srcMissing_run_is_noop_witness :
    fsC7.srcExists = false ∧ run envId rfNone fsC7 = RunOutcome.srcMissing fsC7 :=
  ⟨rfl, srcMissing_run_is_noop envId rfNone fsC7 rfl⟩

/-! ## C1 and C2: the staleness check on a valid-JSON non-object artifact -/

/-- C1: evaluating the run on a document whose artifact file holds the
JSON array [] shows the documented decision rule broken: the staleness
check raises an uncaught AttributeError, the run aborts, and the document
is neither skipped nor processed (its artifact is not rewritten — the
state in the crash report is the untouched input state). -/
theorem corrupt_nonobject_artifact_aborts_run :
    run envId rfNone fsC1 = RunOutcome.crashed PyErr.attributeError ⟨fsC1, 0, 0, [], []⟩ := by
  rfl

/-- C2: reading an artifact whose content is valid JSON but not an
object is not a recoverable needs-processing outcome: should_process_file
raises AttributeError (dict.get on a non-dict), and the run crashes. -/
theorem corrupt_nonobject_artifact_read_raises :
    shouldProcess envId fsC2 ["y.md"] ["y.json"] = Except.error PyErr.attributeError ∧
      run envId rfNone fsC2 = RunOutcome.crashed PyErr.attributeError ⟨fsC2, 0, 0, [], []⟩ := by
  exact ⟨rfl, rfl⟩

/-! ## String lemmas for the stem computation -/

theorem str_ext {s t : String} (h : s.data = t.data) : s = t := by
  cases s
  cases t
  cases h
  rfl

theorem str_append_data (s t : String) : (s ++ t).data = s.data ++ t.data := by
  cases s
  cases t
  rfl

theorem rfindDot_append_md (l : List Char) :
    rfindDot (l ++ ['.', 'm', 'd']) = some l.length := by
  induction l with
  | nil => rfl
  | cons c l ih =>
    rw [List.cons_append]
    simp only [rfindDot]
    rw [ih]
    rfl

theorem pyStem_of_md {l : List Char} (hl : l ≠ []) :
    pyStem (String.mk (l ++ ['.', 'm', 'd'])) = String.mk l := by
  have hfind : rfindDot (String.mk (l ++ ['.', 'm', 'd'])).data = some l.length :=
    rfindDot_append_md l
  have hlen : 0 < l.length := List.length_pos.mpr hl
  have hlt : l.length < (l ++ ['.', 'm', 'd']).length - 1 := by
    simp [List.length_append]
  simp only [pyStem, hfind]
  rw [if_pos ⟨hlen, by exact hlt⟩]
  congr 1
  exact List.take_left l ['.', 'm', 'd']

theorem dotmd_data : (".md" : String).data = ['.', 'm', 'd'] := rfl

theorem endsWith_md_decomp {n : String} (h : strEndsWith n ".md" = true)
    (hne : n ≠ ".md") : ∃ l, l ≠ [] ∧ n.data = l ++ ['.', 'm', 'd'] := by
  have hd : n.data.drop (n.data.length - 3) = ['.', 'm', 'd'] := by
    have := of_decide_eq_true h
    simpa [dotmd_data] using this
  have h3 : 3 ≤ n.data.length := by
    by_contra hlt
    push_neg at hlt
    have hz : n.data.length - 3 = 0 := by omega
    rw [hz, List.drop_zero] at hd
    have : n.data.length = 3 := by rw [hd]; rfl
    omega
  refine ⟨n.data.take (n.data.length - 3), ?_, ?_⟩
  · intro h0
    have htl : (n.data.take (n.data.length - 3)).length = n.data.length - 3 := by
      rw [List.length_take]
      omega
    rw [h0, List.length_nil] at htl
    have hz : n.data.length - 3 = 0 := by omega
    rw [hz, List.drop_zero] at hd
    exact hne (str_ext (by rw [hd, dotmd_data]))
  · rw [← hd]
    exact (List.take_append_drop _ _).symm

/-! ## C6: the artifact path mapping on discovered documents -/

theorem mem_discover_mdName {fs : FS} {p : Path} (h : p ∈ discover fs) :
    mdName p = true :=
  (List.mem_filter.mp h).2

theorem eq_dropLast_append_getLast {l : Path} {n : String} (h : l.getLast? = some n) :
    l = l.dropLast ++ [n] := by
  induction l with
  | nil => cases h
  | cons a l ih =>
    cases l with
    | nil =>
      simp only [List.getLast?_singleton, Option.some.injEq] at h
      rw [h]
      rfl
    | cons b m =>
      rw [List.getLast?_cons_cons] at h
      have := ih h
      rw [List.dropLast_cons₂, List.cons_append, ← this]

theorem mdName_getLast {p : Path} (h : mdName p = true) :
    ∃ n, p.getLast? = some n ∧ strEndsWith n ".md" = true := by
  unfold mdName at h
  cases hg : p.getLast? with
  | none =>
    rw [hg] at h
    cases h
  | some n =>
    rw [hg] at h
    exact ⟨n, rfl, h⟩

/-- C6 (amended): the artifact path mapping is injective on discovered
documents none of which is a file named exactly .md (the bare dotfile
whose pathlib stem is the full name). -/
theorem artifact_path_injective_off_dotmd (fs : FS) (p q : Path)
    (hp : p ∈ discover fs) (hq : q ∈ discover fs)
    (hpd : p.getLast? ≠ some ".md") (hqd : q.getLast? ≠ some ".md")
    (hne : p ≠ q) : artifactPath p ≠ artifactPath q := by
  obtain ⟨n₁, hg₁, he₁⟩ := mdName_getLast (mem_discover_mdName hp)
  obtain ⟨n₂, hg₂, he₂⟩ := mdName_getLast (mem_discover_mdName hq)
  have hne₁ : n₁ ≠ ".md" := fun h => hpd (h ▸ hg₁)
  have hne₂ : n₂ ≠ ".md" := fun h => hqd (h ▸ hg₂)
  obtain ⟨l₁, hl₁, hd₁⟩ := endsWith_md_decomp he₁ hne₁
  obtain ⟨l₂, hl₂, hd₂⟩ := endsWith_md_decomp he₂ hne₂
  intro hart
  apply hne
  have hstem₁ : pyStem n₁ = String.mk l₁ := by
    have : n₁ = String.mk (l₁ ++ ['.', 'm', 'd']) := str_ext hd₁
    rw [this]
    exact pyStem_of_md hl₁
  have hstem₂ : pyStem n₂ = String.mk l₂ := by
    have : n₂ = String.mk (l₂ ++ ['.', 'm', 'd']) := str_ext hd₂
    rw [this]
    exact pyStem_of_md hl₂
  unfold artifactPath at hart
  rw [hg₁, hg₂] at hart
  simp only [Option.getD_some] at hart
  have hdrop : p.dropLast = q.dropLast := by
    have := congrArg List.dropLast hart
    simpa using this
  have hname : pyStem n₁ ++ ".json" = pyStem n₂ ++ ".json" := by
    have := congrArg List.getLast? hart
    simpa using this
  have hstemEq : l₁ = l₂ := by
    rw [hstem₁, hstem₂] at hname
    have hdata := congrArg String.data hname
    rw [str_append_data, str_append_data] at hdata
    simpa using List.append_cancel_right hdata
  have hnEq : n₁ = n₂ := str_ext (by rw [hd₁, hd₂, hstemEq])
  rw [eq_dropLast_append_getLast hg₁, eq_dropLast_append_getLast hg₂, hdrop, hnEq]

/-- Witness for the amended C6 on two concrete documents. -/
theorem artifact_path_injective_off_dotmd_witness :
    (["a.md"] : Path) ∈ discover fsC6W ∧ (["b.md"] : Path) ∈ discover fsC6W ∧
      artifactPath ["a.md"] ≠ artifactPath ["b.md"] :=
  ⟨by decide, by decide,
    artifact_path_injective_off_dotmd fsC6W ["a.md"] ["b.md"] (by decide) (by decide)
      (by decide) (by decide) (by decide)⟩

/-- C6 counterexample: the documents .md and .md.md are both discovered,
have distinct relative paths, and map to the same artifact path
.md.json, because the pathlib stem of the bare dotfile .md is .md
itself. -/
theorem artifact_path_not_injective :
    [".md"] ∈ discover fsC6 ∧ [".md.md"] ∈ discover fsC6 ∧
      ([".md"] : Path) ≠ [".md.md"] ∧
      artifactPath [".md"] = artifactPath [".md.md"] := by
  refine ⟨?_, ?_, ?_, ?_⟩ <;> decide

/-! ## Field-preservation lemmas for the operations -/

theorem mkdirOne_fields {env : Env} {fs fs₁ : FS} {d : Path}
    (h : mkdirOne env fs d = .ok fs₁) :
    fs₁.srcExists = fs.srcExists ∧ fs₁.srcFiles = fs.srcFiles ∧
      fs₁.srcDirs = fs.srcDirs ∧ fs₁.outFiles = fs.outFiles := by
  unfold mkdirOne at h
  by_cases h₁ : isDir fs d = true
  · rw [if_pos h₁] at h
    cases h
    exact ⟨rfl, rfl, rfl, rfl⟩
  · rw [if_neg h₁] at h
    by_cases h₂ : (alookup fs.outFiles d).isSome = true
    · rw [if_pos h₂] at h
      cases h
    · rw [if_neg h₂] at h
      by_cases h₃ : env.mkdirFails d = true
      · rw [if_pos h₃] at h
        cases h
      · rw [if_neg h₃] at h
        cases h
        exact ⟨rfl, rfl, rfl, rfl⟩

theorem mkdirEach_fields {env : Env} {ds : List Path} {fs fs₁ : FS}
    (h : mkdirEach env ds fs = .ok fs₁) :
    fs₁.srcExists = fs.srcExists ∧ fs₁.srcFiles = fs.srcFiles ∧
      fs₁.srcDirs = fs.srcDirs ∧ fs₁.outFiles = fs.outFiles := by
  induction ds generalizing fs with
  | nil =>
    cases h
    exact ⟨rfl, rfl, rfl, rfl⟩
  | cons d ds ih =>
    simp only [mkdirEach] at h
    cases hone : mkdirOne env fs d with
    | error e =>
      rw [hone] at h
      cases h
    | ok fsm =>
      rw [hone] at h
      obtain ⟨a₁, a₂, a₃, a₄⟩ := mkdirOne_fields hone
      obtain ⟨b₁, b₂, b₃, b₄⟩ := ih h
      exact ⟨b₁.trans a₁, b₂.trans a₂, b₃.trans a₃, b₄.trans a₄⟩

theorem mkdirParents_fields {env : Env} {fs fs₁ : FS} {d : Path}
    (h : mkdirParents env fs d = .ok fs₁) :
    fs₁.srcExists = fs.srcExists ∧ fs₁.srcFiles = fs.srcFiles ∧
      fs₁.srcDirs = fs.srcDirs ∧ fs₁.outFiles = fs.outFiles :=
  mkdirEach_fields h

theorem processDoc_src {env : Env} {fs fs₁ : FS} {p w : Path}
    (h : processDoc env fs p = .ok (fs₁, w)) :
    fs₁.srcExists = fs.srcExists ∧ fs₁.srcFiles = fs.srcFiles ∧ fs₁.srcDirs = fs.srcDirs := by
  unfold processDoc at h
  cases hc : alookup fs.srcFiles p with
  | none =>
    rw [hc] at h
    cases h
  | some content =>
    rw [hc] at h
    simp only at h
    cases hmk : mkdirParents env fs (artifactPath p).dropLast with
    | error e =>
      rw [hmk] at h
      cases h
    | ok fsm =>
      rw [hmk] at h
      dsimp only at h
      obtain ⟨a₁, a₂, a₃, _⟩ := mkdirParents_fields hmk
      by_cases hw : env.writeFails (artifactPath p) = true
      · rw [if_pos hw] at h
        cases h
      · rw [if_neg hw] at h
        by_cases hd : isDir fsm (artifactPath p) = true
        · rw [if_pos hd] at h
          cases h
        · rw [if_neg hd] at h
          cases h
          exact ⟨a₁, a₂, a₃⟩

theorem processLoop_src {env : Env} {docs : List Path} {fs fs₁ : FS}
    {pr sk pr₁ sk₁ : Nat} {ws ws₁ : List Path}
    (h : processLoop env docs fs pr sk ws = .ok (fs₁, pr₁, sk₁, ws₁)) :
    fs₁.srcExists = fs.srcExists ∧ fs₁.srcFiles = fs.srcFiles ∧ fs₁.srcDirs = fs.srcDirs := by
  induction docs generalizing fs pr sk ws with
  | nil =>
    cases h
    exact ⟨rfl, rfl, rfl⟩
  | cons p rest ih =>
    simp only [processLoop] at h
    cases hsp : shouldProcess env fs p (artifactPath p) with
    | error e =>
      rw [hsp] at h
      cases h
    | ok b =>
      rw [hsp] at h
      cases b with
      | false => exact ih h
      | true =>
        cases hpd : processDoc env fs p with
        | error e =>
          rw [hpd] at h
          cases h
        | ok q =>
          obtain ⟨fsm, w⟩ := q
          rw [hpd] at h
          obtain ⟨a₁, a₂, a₃⟩ := processDoc_src hpd
          obtain ⟨b₁, b₂, b₃⟩ := ih h
          exact ⟨b₁.trans a₁, b₂.trans a₂, b₃.trans a₃⟩

theorem discover_congr {fs₁ fs₂ : FS} (h₁ : fs₁.srcFiles = fs₂.srcFiles)
    (h₂ : fs₁.srcDirs = fs₂.srcDirs) : discover fs₁ = discover fs₂ := by
  unfold discover
  rw [h₁, h₂]

/-! ## Decomposing a completed run -/

theorem run_done_inv {env : Env} {rf : Path → Bool} {s : FS} {r : RunReport}
    (h : run env rf s = RunOutcome.done r) :
    s.srcExists = true ∧
      ∃ fs₀ fs₁ pr sk ws ds,
        mkdirParents env s [] = .ok fs₀ ∧
        processLoop env (discover fs₀) fs₀ 0 0 [] = .ok (fs₁, pr, sk, ws) ∧
        deleteOrphans rf (findOrphans fs₁ (imagePaths (discover fs₀))) fs₁ = .ok (r.fs, ds) ∧
        r = ⟨r.fs, pr, sk, ws, ds⟩ := by
  unfold run at h
  cases hsrc : s.srcExists with
  | false =>
    rw [hsrc] at h
    cases h
  | true =>
    rw [hsrc] at h
    dsimp only [Bool.not_true] at h
    rw [if_neg (by simp)] at h
    refine ⟨rfl, ?_⟩
    cases hmk : mkdirParents env s [] with
    | error e =>
      rw [hmk] at h
      cases h
    | ok fs₀ =>
      rw [hmk] at h
      dsimp only at h
      cases hloop : processLoop env (discover fs₀) fs₀ 0 0 [] with
      | error E =>
        rw [hloop] at h
        obtain ⟨e, fsx, prx, skx, wsx⟩ := E
        cases h
      | ok Q =>
        obtain ⟨fs₁, pr, sk, ws⟩ := Q
        rw [hloop] at h
        dsimp only at h
        cases hdel : deleteOrphans rf (findOrphans fs₁ (imagePaths (discover fs₀))) fs₁ with
        | error E =>
          rw [hdel] at h
          obtain ⟨e, fsx, dsx⟩ := E
          cases h
        | ok Q₂ =>
          obtain ⟨fs₂, ds⟩ := Q₂
          rw [hdel] at h
          dsimp only at h
          cases h
          exact ⟨fs₀, fs₁, pr, sk, ws, ds, rfl, hloop, hdel, rfl⟩

/-! ## C10: counting processed and skipped documents -/

theorem processLoop_count {env : Env} {docs : List Path} {fs fs₁ : FS}
    {pr sk pr₁ sk₁ : Nat} {ws ws₁ : List Path}
    (h : processLoop env docs fs pr sk ws = .ok (fs₁, pr₁, sk₁, ws₁)) :
    pr₁ + sk₁ = pr + sk + docs.length := by
  induction docs generalizing fs pr sk ws with
  | nil =>
    cases h
    simp
  | cons p rest ih =>
    simp only [processLoop] at h
    cases hsp : shouldProcess env fs p (artifactPath p) with
    | error e =>
      rw [hsp] at h
      cases h
    | ok b =>
      rw [hsp] at h
      cases b with
      | false =>
        have := ih h
        simp only [List.length_cons]
        omega
      | true =>
        cases hpd : processDoc env fs p with
        | error e =>
          rw [hpd] at h
          cases h
        | ok q =>
          obtain ⟨fsm, w⟩ := q
          rw [hpd] at h
          have := ih h
          simp only [List.length_cons]
          omega

/-- C10 (amended): in every run that completes without an uncaught
exception, each discovered document is classified exactly once, so the
processed count plus the skipped count equals the number of discovered
documents. -/
theorem processed_add_skipped_eq_discovered {env : Env} {rf : Path → Bool} {s : FS}
    {r : RunReport} (h : run env rf s = RunOutcome.done r) :
    r.processed + r.skipped = (discover s).length := by
  obtain ⟨-, fs₀, fs₁, pr, sk, ws, ds, hmk, hloop, hdel, hr⟩ := run_done_inv h
  obtain ⟨-, h₂, h₃, -⟩ := mkdirParents_fields hmk
  have hd : discover fs₀ = discover s := discover_congr h₂ h₃
  have hcount := processLoop_count hloop
  rw [hd] at hcount
  rw [hr]
  simpa using hcount

/-- Witness for the amended C10: a completed run with one skipped
document. -/
theorem processed_add_skipped_eq_discovered_witness :
    run envId rfNone fsC10W = RunOutcome.done ⟨fsC10W, 0, 1, [], []⟩ ∧
      (0 : Nat) + 1 = (discover fsC10W).length :=
  ⟨rfl, processed_add_skipped_eq_discovered
    (show run envId rfNone fsC10W = RunOutcome.done ⟨fsC10W, 0, 1, [], []⟩ from rfl)⟩

/-- C10 counterexample: a run whose source root exists but which aborts
on the first document (its artifact holds a JSON number), so nothing is
reported and the discovered document is never classified as processed or
skipped: the counters at the crash are 0 and 0 while one document was
discovered. -/
theorem crashed_run_classifies_nothing :
    run envId rfNone fsC10 = RunOutcome.crashed PyErr.attributeError ⟨fsC10, 0, 0, [], []⟩ ∧
      fsC10.srcExists = true ∧ (discover fsC10).length = 1 :=
  ⟨rfl, rfl, rfl⟩

/-! ## C5: a persistence failure aborts the whole batch -/

theorem processLoop_append {env : Env} {l₁ l₂ : List Path} {fs : FS}
    {pr sk : Nat} {ws : List Path} :
    processLoop env (l₁ ++ l₂) fs pr sk ws =
      match processLoop env l₁ fs pr sk ws with
      | .error E => .error E
      | .ok (fs₁, pr₁, sk₁, ws₁) => processLoop env l₂ fs₁ pr₁ sk₁ ws₁ := by
  induction l₁ generalizing fs pr sk ws with
  | nil => rfl
  | cons p rest ih =>
    rw [List.cons_append]
    simp only [processLoop]
    cases hsp : shouldProcess env fs p (artifactPath p) with
    | error e => rfl
    | ok b =>
      cases b with
      | false => exact ih
      | true =>
        cases hpd : processDoc env fs p with
        | error e => rfl
        | ok q =>
          obtain ⟨fsm, w⟩ := q
          exact ih

/-- C5 (amended): when persisting the artifact of a document fails, the
exception propagates and the run aborts there: the documents after it
are not visited, no further write happens, and the orphan cleanup does
not run (the crash report carries exactly the state and writes of the
earlier documents, and an empty deletion log). -/
theorem persist_failure_aborts_run (env : Env) (rf : Path → Bool) (s : FS)
    (pre post : List Path) (d : Path) (fs₀ fs₁ fsE : FS) (pr sk : Nat) (ws : List Path)
    (e : PyErr)
    (hsrc : s.srcExists = true)
    (hmk : mkdirParents env s [] = .ok fs₀)
    (hdocs : discover fs₀ = pre ++ d :: post)
    (hpre : processLoop env pre fs₀ 0 0 [] = .ok (fs₁, pr, sk, ws))
    (hsp : shouldProcess env fs₁ d (artifactPath d) = .ok true)
    (hfail : processDoc env fs₁ d = .error (e, fsE)) :
    run env rf s = RunOutcome.crashed e ⟨fsE, pr, sk, ws, []⟩ := by
  unfold run
  rw [hsrc]
  dsimp only [Bool.not_true]
  rw [if_neg (by simp)]
  rw [hmk]
  dsimp only
  rw [hdocs, processLoop_append, hpre]
  dsimp only [processLoop]
  rw [hsp]
  dsimp only
  rw [hfail]

/-- C5 counterexample: with a failing write for the first document, the
run aborts with an OSError before touching the second document: the
outcome is a crash, the second artifact was never written, and nothing
was processed.  The claim says the run should skip the failing document
and continue with the remaining ones. -/
theorem persist_failure_does_not_continue :
    run envC5 rfNone fsC5 = RunOutcome.crashed PyErr.osError ⟨fsC5r, 0, 0, [], []⟩ ∧
      alookup (stateOf (run envC5 rfNone fsC5)).outFiles ["b.json"] = none :=
  ⟨rfl, rfl⟩

/-- Witness for the amended C5 at a concrete two-document run. -/
theorem persist_failure_aborts_run_witness :
    run envC5 rfNone fsC5 = RunOutcome.crashed PyErr.osError ⟨fsC5r, 0, 0, [], []⟩ :=
  persist_failure_aborts_run envC5 rfNone fsC5 [] [["b.md"]] ["a.md"] fsC5r fsC5r fsC5r 0 0 []
    PyErr.osError rfl rfl rfl rfl rfl rfl

/-! ## C8: the fields of a written artifact -/

theorem takeWhile_eq_self_of_none {l : List Char}
    (h : ∀ ch ∈ l, ¬(ch = '\n')) : l.takeWhile (fun ch => !(ch = '\n')) = l := by
  induction l with
  | nil => rfl
  | cons a l ih =>
    have ha : ¬(a = '\n') := h a (List.mem_cons_self a l)
    simp only [List.takeWhile_cons]
    rw [if_pos (by simpa using ha)]
    rw [ih (fun ch hch => h ch (List.mem_cons_of_mem a hch))]

theorem str_mk_data (s : String) : String.mk s.data = s := by
  cases s
  rfl

theorem firstLine_of_no_newline {c : String} (h : ∀ ch ∈ c.data, ¬(ch = '\n')) :
    firstLine c = c := by
  unfold firstLine
  rw [takeWhile_eq_self_of_none h, str_mk_data]

/-- C8: processing a document writes, at its mapped artifact path, a
JSON object whose shasum field is the content hash of the document at
processing time, whose headline field is the stripped first line of the
content (empty for an empty document, the stripped whole content for a
document without a newline), and whose embeddings field is an object
with exactly one key, the provider identifier, bound to the vector the
provider returned. -/
theorem processed_artifact_fields (env : Env) (fs fs₁ : FS) (p w : Path) (c : String)
    (hc : alookup fs.srcFiles p = some c)
    (h : processDoc env fs p = .ok (fs₁, w)) :
    w = artifactPath p ∧
      (∃ fields,
        alookup fs₁.outFiles (artifactPath p) = some (FileData.json (Json.obj fields)) ∧
        objGet fields "shasum" = some (Json.str (env.hash c)) ∧
        objGet fields "headline" = some (Json.str (pyStrip (firstLine c))) ∧
        objGet fields "embeddings" =
          some (Json.obj [(env.modelName, Json.arr ((env.embed c).map Json.num))])) ∧
      (c = "" → pyStrip (firstLine c) = "") ∧
      ((∀ ch ∈ c.data, ¬(ch = '\n')) → pyStrip (firstLine c) = pyStrip c) := by
  unfold processDoc at h
  rw [hc] at h
  dsimp only at h
  cases hmk : mkdirParents env fs (artifactPath p).dropLast with
  | error E =>
    rw [hmk] at h
    cases h
  | ok fsm =>
    rw [hmk] at h
    dsimp only at h
    by_cases hw : env.writeFails (artifactPath p) = true
    · rw [if_pos hw] at h
      cases h
    · rw [if_neg hw] at h
      by_cases hd : isDir fsm (artifactPath p) = true
      · rw [if_pos hd] at h
        cases h
      · rw [if_neg hd] at h
        cases h
        refine ⟨rfl, ⟨_, alookup_setFile_self, rfl, rfl, rfl⟩, ?_, ?_⟩
        · intro h0
          rw [h0]
          rfl
        · intro hnl
          rw [firstLine_of_no_newline hnl]

/-! ## The mkdir layer -/

theorem prefixesOf_nil : prefixesOf [] = [[]] := rfl

theorem take_dropLast_eq {d : Path} {k : Nat} (h : k ≤ d.length - 1) :
    d.dropLast.take k = d.take k := by
  rw [List.dropLast_eq_take, List.take_take]
  congr 1
  omega

theorem prefixesOf_snoc {d : Path} (h : d ≠ []) :
    prefixesOf d = prefixesOf d.dropLast ++ [d] := by
  have hn : 0 < d.length := List.length_pos.mpr h
  unfold prefixesOf
  rw [List.length_dropLast]
  have h1 : d.length + 1 = (d.length - 1 + 1) + 1 := by omega
  rw [h1, List.range_succ, List.map_append]
  congr 1
  · apply List.map_congr_left
    intro k hk
    rw [List.mem_range] at hk
    exact (take_dropLast_eq (by omega)).symm
  · simp only [List.map_cons, List.map_nil]
    rw [show d.length - 1 + 1 = d.length by omega, List.take_length]

theorem mkdirEach_append {env : Env} {l₁ l₂ : List Path} {fs : FS} :
    mkdirEach env (l₁ ++ l₂) fs =
      match mkdirEach env l₁ fs with
      | .error E => .error E
      | .ok f => mkdirEach env l₂ f := by
  induction l₁ generalizing fs with
  | nil => rfl
  | cons d rest ih =>
    rw [List.cons_append]
    simp only [mkdirEach]
    cases mkdirOne env fs d with
    | error E => rfl
    | ok f => exact ih

theorem mkdirOne_ok_inv {env : Env} {fs fs₁ : FS} {d : Path}
    (h : mkdirOne env fs d = .ok fs₁) :
    (d ∈ fs.outDirs ∧ fs₁ = fs) ∨
      (d ∉ fs.outDirs ∧ alookup fs.outFiles d = none ∧
        fs₁ = { fs with outDirs := d :: fs.outDirs }) := by
  unfold mkdirOne at h
  by_cases h₁ : isDir fs d = true
  · rw [if_pos h₁] at h
    cases h
    exact Or.inl ⟨of_decide_eq_true h₁, rfl⟩
  · rw [if_neg h₁] at h
    by_cases h₂ : (alookup fs.outFiles d).isSome = true
    · rw [if_pos h₂] at h
      cases h
    · rw [if_neg h₂] at h
      by_cases h₃ : env.mkdirFails d = true
      · rw [if_pos h₃] at h
        cases h
      · rw [if_neg h₃] at h
        cases h
        refine Or.inr ⟨?_, ?_, rfl⟩
        · intro hmem
          exact h₁ (decide_eq_true hmem)
        · cases halk : alookup fs.outFiles d with
          | none => rfl
          | some v =>
            exfalso
            apply h₂
            rw [halk]
            rfl

theorem mkdirOne_dirs_sub {env : Env} {fs fs₁ : FS} {d : Path}
    (h : mkdirOne env fs d = .ok fs₁) : fs.outDirs ⊆ fs₁.outDirs := by
  rcases mkdirOne_ok_inv h with ⟨-, rfl⟩ | ⟨-, -, rfl⟩
  · exact fun e he => he
  · exact fun e he => List.mem_cons_of_mem d he

theorem mkdirOne_mem {env : Env} {fs fs₁ : FS} {d : Path}
    (h : mkdirOne env fs d = .ok fs₁) : d ∈ fs₁.outDirs := by
  rcases mkdirOne_ok_inv h with ⟨hd, rfl⟩ | ⟨-, -, rfl⟩
  · exact hd
  · exact List.mem_cons_self d fs.outDirs

theorem mkdirOne_new_dirs {env : Env} {fs fs₁ : FS} {d : Path}
    (h : mkdirOne env fs d = .ok fs₁) :
    ∀ e ∈ fs₁.outDirs, e ∈ fs.outDirs ∨ alookup fs.outFiles e = none := by
  rcases mkdirOne_ok_inv h with ⟨-, rfl⟩ | ⟨-, hnone, rfl⟩
  · exact fun e he => Or.inl he
  · intro e he
    rcases List.mem_cons.mp he with rfl | he
    · exact Or.inr hnone
    · exact Or.inl he

theorem mkdirOne_WF {env : Env} {fs fs₁ : FS} {d : Path}
    (hWF : WF fs) (hpar : ∀ j, j < d.length → d.take j ∈ fs.outDirs)
    (h : mkdirOne env fs d = .ok fs₁) : WF fs₁ := by
  obtain ⟨hne, hanc, hnb, hcl⟩ := hWF
  rcases mkdirOne_ok_inv h with ⟨-, rfl⟩ | ⟨-, hnone, rfl⟩
  · exact ⟨hne, hanc, hnb, hcl⟩
  · refine ⟨hne, ?_, ?_, ?_⟩
    · intro p hp k hk
      exact List.mem_cons_of_mem d (hanc p hp k hk)
    · intro p hp hmem
      rcases List.mem_cons.mp hmem with rfl | hmem
      · rw [alookup_eq_none_iff] at hnone
        exact hnone hp
      · exact hnb p hp hmem
    · intro e he j hj
      rcases List.mem_cons.mp he with rfl | he
      · by_cases hjl : j = e.length
        · rw [hjl, List.take_length]
          exact List.mem_cons_self e fs.outDirs
        · exact List.mem_cons_of_mem e (hpar j (by omega))
      · exact List.mem_cons_of_mem d (hcl e he j hj)

theorem mkdirParents_pres {env : Env} :
    ∀ n (d : Path), d.length ≤ n → ∀ (fs fs₁ : FS), WF fs →
      mkdirParents env fs d = .ok fs₁ →
      WF fs₁ ∧ fs₁.outFiles = fs.outFiles ∧ fs.outDirs ⊆ fs₁.outDirs ∧
        (∀ k, k ≤ d.length → d.take k ∈ fs₁.outDirs) ∧
        (∀ e ∈ fs₁.outDirs, e ∈ fs.outDirs ∨ alookup fs.outFiles e = none) := by
  intro n
  induction n with
  | zero =>
    intro d hd fs fs₁ hWF h
    have hdnil : d = [] := List.eq_nil_of_length_eq_zero (by omega)
    subst hdnil
    unfold mkdirParents at h
    rw [prefixesOf_nil] at h
    simp only [mkdirEach] at h
    cases hone : mkdirOne env fs [] with
    | error E =>
      rw [hone] at h
      cases h
    | ok f =>
      rw [hone] at h
      cases h
      refine ⟨mkdirOne_WF hWF (fun j hj => by simp at hj) hone,
        (mkdirOne_fields hone).2.2.2, mkdirOne_dirs_sub hone, ?_, mkdirOne_new_dirs hone⟩
      intro k hk
      have : k = 0 := by simpa using hk
      rw [this]
      simpa using mkdirOne_mem hone
  | succ n ih =>
    intro d hd fs fs₁ hWF h
    by_cases hdnil : d = []
    · subst hdnil
      exact ih [] (by simp) fs fs₁ hWF h
    · unfold mkdirParents at h
      rw [prefixesOf_snoc hdnil, mkdirEach_append] at h
      cases hmid : mkdirEach env (prefixesOf d.dropLast) fs with
      | error E =>
        rw [hmid] at h
        cases h
      | ok fsm =>
        rw [hmid] at h
        dsimp only at h
        simp only [mkdirEach] at h
        cases hone : mkdirOne env fsm d with
        | error E =>
          rw [hone] at h
          cases h
        | ok fsf =>
          rw [hone] at h
          cases h
          have hdl : d.dropLast.length ≤ n := by
            rw [List.length_dropLast]
            omega
          obtain ⟨hWFm, hfm, hsubm, htakem, hnewm⟩ := ih d.dropLast hdl fs fsm hWF hmid
          have hpar : ∀ j, j < d.length → d.take j ∈ fsm.outDirs := by
            intro j hj
            have hj1 : j ≤ d.length - 1 := by omega
            rw [← take_dropLast_eq hj1]
            exact htakem j (by rw [List.length_dropLast]; omega)
          refine ⟨mkdirOne_WF hWFm hpar hone, ?_, ?_, ?_, ?_⟩
          · rw [(mkdirOne_fields hone).2.2.2, hfm]
          · exact fun e he => mkdirOne_dirs_sub hone (hsubm he)
          · intro k hk
            by_cases hkl : k = d.length
            · rw [hkl, List.take_length]
              exact mkdirOne_mem hone
            · have hk1 : k ≤ d.length - 1 := by omega
              rw [← take_dropLast_eq hk1]
              exact mkdirOne_dirs_sub hone
                (htakem k (by rw [List.length_dropLast]; omega))
          · intro e he
            rcases mkdirOne_new_dirs hone e he with hin | hnone
            · rcases hnewm e hin with hin2 | hnone2
              · exact Or.inl hin2
              · exact Or.inr hnone2
            · rw [hfm] at hnone
              exact Or.inr hnone

theorem mkdirParents_main {env : Env} {fs fs₁ : FS} {d : Path} (hWF : WF fs)
    (h : mkdirParents env fs d = .ok fs₁) :
    WF fs₁ ∧ fs₁.outFiles = fs.outFiles ∧ fs.outDirs ⊆ fs₁.outDirs ∧
      (∀ k, k ≤ d.length → d.take k ∈ fs₁.outDirs) ∧
      (∀ e ∈ fs₁.outDirs, e ∈ fs.outDirs ∨ alookup fs.outFiles e = none) :=
  mkdirParents_pres d.length d (Nat.le_refl _) fs fs₁ hWF h

theorem mkdirEach_any_state {env : Env} {ds : List Path} {fs : FS} :
    (eachFS (mkdirEach env ds fs)).outFiles = fs.outFiles ∧
      fs.outDirs ⊆ (eachFS (mkdirEach env ds fs)).outDirs ∧
      (eachFS (mkdirEach env ds fs)).srcExists = fs.srcExists ∧
      (eachFS (mkdirEach env ds fs)).srcFiles = fs.srcFiles ∧
      (eachFS (mkdirEach env ds fs)).srcDirs = fs.srcDirs := by
  induction ds generalizing fs with
  | nil => exact ⟨rfl, fun e he => he, rfl, rfl, rfl⟩
  | cons d rest ih =>
    simp only [mkdirEach]
    cases hone : mkdirOne env fs d with
    | error E =>
      unfold mkdirOne at hone
      by_cases h₁ : isDir fs d = true
      · rw [if_pos h₁] at hone
        cases hone
      · rw [if_neg h₁] at hone
        by_cases h₂ : (alookup fs.outFiles d).isSome = true
        · rw [if_pos h₂] at hone
          cases hone
          exact ⟨rfl, fun e he => he, rfl, rfl, rfl⟩
        · rw [if_neg h₂] at hone
          by_cases h₃ : env.mkdirFails d = true
          · rw [if_pos h₃] at hone
            cases hone
            exact ⟨rfl, fun e he => he, rfl, rfl, rfl⟩
          · rw [if_neg h₃] at hone
            cases hone
    | ok f =>
      obtain ⟨a₁, a₂, a₃, a₄⟩ := mkdirOne_fields hone
      obtain ⟨b₁, b₂, b₃, b₄, b₅⟩ := @ih f
      refine ⟨b₁.trans a₄, ?_, b₃.trans a₁, b₄.trans a₂, b₅.trans a₃⟩
      exact fun e he => b₂ (mkdirOne_dirs_sub hone he)

/-! ## The processing layer -/

theorem strEndsWith_append_self (s t : String) : strEndsWith (s ++ t) t = true := by
  unfold strEndsWith endsWithList
  rw [str_append_data]
  apply decide_eq_true
  have hlen : (s.data ++ t.data).length - t.data.length = s.data.length := by
    rw [List.length_append]
    omega
  rw [hlen, List.drop_left]

theorem jsonName_artifactPath (p : Path) : jsonName (artifactPath p) = true := by
  unfold jsonName artifactPath
  rw [getLast?_append_single]
  exact strEndsWith_append_self _ _

theorem artifactPath_ne_nil (p : Path) : artifactPath p ≠ [] := by
  unfold artifactPath
  intro h
  exact absurd (congrArg List.length h) (by simp)

theorem artifactPath_dropLast (p : Path) : (artifactPath p).dropLast = p.dropLast := by
  unfold artifactPath
  exact dropLast_append_single

theorem writeArtifact_files {fs : FS} {p : Path} {v : FileData} :
    (writeArtifact fs p v).outFiles = setFile fs.outFiles p v := rfl

theorem writeArtifact_dirs {fs : FS} {p : Path} {v : FileData} :
    (writeArtifact fs p v).outDirs = fs.outDirs := rfl

theorem processDoc_ok_inv {env : Env} {fs fs₁ : FS} {p w : Path}
    (h : processDoc env fs p = .ok (fs₁, w)) :
    ∃ c fsm, alookup fs.srcFiles p = some c ∧
      mkdirParents env fs (artifactPath p).dropLast = .ok fsm ∧
      isDir fsm (artifactPath p) = false ∧
      w = artifactPath p ∧
      fs₁ = writeArtifact fsm (artifactPath p) (FileData.json (artifactJson env c)) := by
  unfold processDoc at h
  cases hc : alookup fs.srcFiles p with
  | none =>
    rw [hc] at h
    cases h
  | some content =>
    rw [hc] at h
    dsimp only at h
    cases hmk : mkdirParents env fs (artifactPath p).dropLast with
    | error E =>
      rw [hmk] at h
      cases h
    | ok fsm =>
      rw [hmk] at h
      dsimp only at h
      by_cases hw : env.writeFails (artifactPath p) = true
      · rw [if_pos hw] at h
        cases h
      · rw [if_neg hw] at h
        by_cases hd : isDir fsm (artifactPath p) = true
        · rw [if_pos hd] at h
          cases h
        · rw [if_neg hd] at h
          cases h
          exact ⟨content, fsm, rfl, rfl, Bool.eq_false_iff.mpr hd, rfl, rfl⟩

theorem processDoc_main {env : Env} {fs fs₁ : FS} {p w : Path} (hWF : WF fs)
    (h : processDoc env fs p = .ok (fs₁, w)) :
    WF fs₁ ∧ w = artifactPath p ∧
      (∃ c, alookup fs.srcFiles p = some c ∧
        alookup fs₁.outFiles (artifactPath p) =
          some (FileData.json (artifactJson env c))) ∧
      (∀ q, q ≠ artifactPath p → alookup fs₁.outFiles q = alookup fs.outFiles q) ∧
      fs.outDirs ⊆ fs₁.outDirs := by
  obtain ⟨c, fsm, hc, hmk, hdir, hw, hfs₁⟩ := processDoc_ok_inv h
  obtain ⟨hWFm, hfm, hsubm, htakem, -⟩ := mkdirParents_main hWF hmk
  obtain ⟨hneM, hancM, hnbM, hclM⟩ := hWFm
  have hdirs₁ : fs₁.outDirs = fsm.outDirs := by rw [hfs₁]; rfl
  have hfiles₁ : fs₁.outFiles =
      setFile fsm.outFiles (artifactPath p) (FileData.json (artifactJson env c)) := by
    rw [hfs₁]
    rfl
  have hlen : (artifactPath p).dropLast.length = (artifactPath p).length - 1 := by
    rw [List.length_dropLast]
  have hWF₁ : WF fs₁ := by
    refine ⟨?_, ?_, ?_, ?_⟩
    · intro q hq
      rw [← alookup_isSome_iff, hfiles₁] at hq
      by_cases hqe : q = artifactPath p
      · rw [hqe]
        exact artifactPath_ne_nil p
      · rw [alookup_setFile_ne hqe, alookup_isSome_iff] at hq
        exact hneM q hq
    · intro q hq k hk
      rw [← alookup_isSome_iff, hfiles₁] at hq
      rw [hdirs₁]
      by_cases hqe : q = artifactPath p
      · rw [hqe] at hk ⊢
        have hk1 : k ≤ (artifactPath p).length - 1 := by omega
        rw [← take_dropLast_eq hk1]
        apply htakem
        omega
      · rw [alookup_setFile_ne hqe, alookup_isSome_iff] at hq
        exact hancM q hq k hk
    · intro q hq
      rw [← alookup_isSome_iff, hfiles₁] at hq
      rw [hdirs₁]
      by_cases hqe : q = artifactPath p
      · rw [hqe]
        intro hmem
        rw [show isDir fsm (artifactPath p) = true from decide_eq_true hmem] at hdir
        cases hdir
      · rw [alookup_setFile_ne hqe, alookup_isSome_iff] at hq
        exact hnbM q hq
    · intro e he j hj
      rw [hdirs₁] at he ⊢
      exact hclM e he j hj
  refine ⟨hWF₁, hw, ⟨c, hc, ?_⟩, ?_, ?_⟩
  · rw [hfiles₁]
    exact alookup_setFile_self
  · intro q hq
    rw [hfiles₁, alookup_setFile_ne hq, hfm]
  · rw [hdirs₁]
    exact hsubm

theorem processDoc_err_state {env : Env} {fs : FS} {p : Path} {E : PyErr × FS}
    (h : processDoc env fs p = .error E) :
    E.2.outFiles = fs.outFiles ∧ fs.outDirs ⊆ E.2.outDirs ∧
      E.2.srcExists = fs.srcExists ∧ E.2.srcFiles = fs.srcFiles ∧
      E.2.srcDirs = fs.srcDirs := by
  unfold processDoc at h
  cases hc : alookup fs.srcFiles p with
  | none =>
    rw [hc] at h
    cases h
    exact ⟨rfl, fun e he => he, rfl, rfl, rfl⟩
  | some content =>
    rw [hc] at h
    dsimp only at h
    cases hmk : mkdirParents env fs (artifactPath p).dropLast with
    | error E₂ =>
      rw [hmk] at h
      cases h
      have hst := @mkdirEach_any_state env (prefixesOf (artifactPath p).dropLast) fs
      unfold mkdirParents at hmk
      rw [hmk] at hst
      exact hst
    | ok fsm =>
      rw [hmk] at h
      dsimp only at h
      have hst := @mkdirEach_any_state env (prefixesOf (artifactPath p).dropLast) fs
      unfold mkdirParents at hmk
      rw [hmk] at hst
      by_cases hw : env.writeFails (artifactPath p) = true
      · rw [if_pos hw] at h
        cases h
        exact hst
      · rw [if_neg hw] at h
        by_cases hd : isDir fsm (artifactPath p) = true
        · rw [if_pos hd] at h
          cases h
          exact hst
        · rw [if_neg hd] at h
          cases h

theorem processLoop_any_state {env : Env} {docs : List Path} {fs : FS}
    {pr sk : Nat} {ws : List Path} :
    fs.outDirs ⊆ (loopFS (processLoop env docs fs pr sk ws)).outDirs ∧
      (∀ q, (∀ d ∈ docs, artifactPath d ≠ q) →
        alookup (loopFS (processLoop env docs fs pr sk ws)).outFiles q =
          alookup fs.outFiles q) := by
  induction docs generalizing fs pr sk ws with
  | nil => exact ⟨fun e he => he, fun q _ => rfl⟩
  | cons p rest ih =>
    simp only [processLoop]
    cases hsp : shouldProcess env fs p (artifactPath p) with
    | error e => exact ⟨fun e he => he, fun q _ => rfl⟩
    | ok b =>
      cases b with
      | false =>
        obtain ⟨s₁, s₂⟩ := @ih fs pr (sk + 1) ws
        exact ⟨s₁, fun q hq => s₂ q (fun d hd => hq d (List.mem_cons_of_mem p hd))⟩
      | true =>
        cases hpd : processDoc env fs p with
        | error E =>
          obtain ⟨e₁, e₂, -⟩ := processDoc_err_state hpd
          exact ⟨e₂, fun q _ => congrArg (fun l => alookup l q) e₁⟩
        | ok Q =>
          obtain ⟨fsm, w⟩ := Q
          obtain ⟨c, fsmm, hc, hmk, hdir, hw, hfs₁⟩ := processDoc_ok_inv hpd
          obtain ⟨s₁, s₂⟩ := @ih fsm (pr + 1) sk (ws ++ [w])
          constructor
          · intro e he
            apply s₁
            rw [hfs₁]
            have hst := @mkdirEach_any_state env (prefixesOf (artifactPath p).dropLast) fs
            unfold mkdirParents at hmk
            rw [hmk] at hst
            exact hst.2.1 he
          · intro q hq
            rw [s₂ q (fun d hd => hq d (List.mem_cons_of_mem p hd))]
            rw [hfs₁]
            have hqp : q ≠ artifactPath p := fun hqe =>
              hq p (List.mem_cons_self p rest) hqe.symm
            rw [writeArtifact_files, alookup_setFile_ne hqp]
            have := @mkdirEach_any_state env (prefixesOf (artifactPath p).dropLast) fs
            unfold mkdirParents at hmk
            rw [hmk] at this
            exact congrArg (fun l => alookup l q) this.1

theorem processLoop_WF {env : Env} {docs : List Path} {fs fs₁ : FS}
    {pr sk pr₁ sk₁ : Nat} {ws ws₁ : List Path} (hWF : WF fs)
    (h : processLoop env docs fs pr sk ws = .ok (fs₁, pr₁, sk₁, ws₁)) :
    WF fs₁ := by
  induction docs generalizing fs pr sk ws with
  | nil =>
    cases h
    exact hWF
  | cons p rest ih =>
    simp only [processLoop] at h
    cases hsp : shouldProcess env fs p (artifactPath p) with
    | error e =>
      rw [hsp] at h
      cases h
    | ok b =>
      rw [hsp] at h
      cases b with
      | false => exact ih hWF h
      | true =>
        cases hpd : processDoc env fs p with
        | error E =>
          rw [hpd] at h
          cases h
        | ok Q =>
          obtain ⟨fsm, w⟩ := Q
          rw [hpd] at h
          exact ih (processDoc_main hWF hpd).1 h

/-! ## The pruning loop -/

theorem mem_rmDir {fs : FS} {d e : Path} :
    e ∈ (rmDir fs d).outDirs ↔ e ∈ fs.outDirs ∧ e ≠ d := by
  unfold rmDir
  simp only [List.mem_filter, Bool.not_eq_eq_eq_not, Bool.not_true, decide_eq_false_iff_not]

theorem rmDir_files {fs : FS} {d : Path} : (rmDir fs d).outFiles = fs.outFiles := rfl

theorem hasChildEntry_iff {fs : FS} {d : Path} :
    hasChildEntry fs d = true ↔
      (∃ q ∈ fs.outFiles, q.1.length = d.length + 1 ∧ q.1.dropLast = d) ∨
      (∃ e ∈ fs.outDirs, e.length = d.length + 1 ∧ e.dropLast = d) := by
  unfold hasChildEntry
  rw [Bool.or_eq_true, List.any_eq_true, List.any_eq_true]
  constructor
  · intro h
    rcases h with ⟨q, hq, hcond⟩ | ⟨e, he, hcond⟩
    · rw [Bool.and_eq_true] at hcond
      exact Or.inl ⟨q, hq, by exact_mod_cast of_decide_eq_true (by simpa using hcond.1),
        of_decide_eq_true hcond.2⟩
    · rw [Bool.and_eq_true] at hcond
      exact Or.inr ⟨e, he, by exact_mod_cast of_decide_eq_true (by simpa using hcond.1),
        of_decide_eq_true hcond.2⟩
  · intro h
    rcases h with ⟨q, hq, h₁, h₂⟩ | ⟨e, he, h₁, h₂⟩
    · refine Or.inl ⟨q, hq, ?_⟩
      rw [Bool.and_eq_true]
      exact ⟨by simpa using h₁, decide_eq_true h₂⟩
    · refine Or.inr ⟨e, he, ?_⟩
      rw [Bool.and_eq_true]
      exact ⟨by simpa using h₁, decide_eq_true h₂⟩

theorem dropLast_eq_take_sub_one {l : Path} : l.dropLast = l.take (l.length - 1) := by
  rw [List.dropLast_eq_take]

theorem rmDir_empty_WF {fs : FS} {d : Path} (hWF : WF fs)
    (hemp : hasChildEntry fs d = false) : WF (rmDir fs d) := by
  obtain ⟨hne, hanc, hnb, hcl⟩ := hWF
  have hnochild : ∀ x : Path, x.length = d.length + 1 → x.dropLast = d →
      (x ∈ fs.outFiles.map (fun q => q.1) → False) ∧ (x ∈ fs.outDirs → False) := by
    intro x hlen hdrop
    constructor
    · intro hmem
      rw [List.mem_map] at hmem
      obtain ⟨q, hq, hq1⟩ := hmem
      have : hasChildEntry fs d = true :=
        hasChildEntry_iff.mpr (Or.inl ⟨q, hq, by rw [hq1]; exact hlen, by rw [hq1]; exact hdrop⟩)
      rw [this] at hemp
      cases hemp
    · intro hmem
      have : hasChildEntry fs d = true :=
        hasChildEntry_iff.mpr (Or.inr ⟨x, hmem, hlen, hdrop⟩)
      rw [this] at hemp
      cases hemp
  refine ⟨fun p hp => hne p hp, ?_, ?_, ?_⟩
  · intro p hp k hk
    rw [mem_rmDir]
    refine ⟨hanc p hp k hk, ?_⟩
    intro heq
    have hdlen : d.length = k := by
      rw [← heq, List.length_take]
      have := List.length_take k p
      omega
    by_cases hk1 : k + 1 < p.length
    · have hchild := hanc p hp (k + 1) hk1
      have h1 : (p.take (k + 1)).length = d.length + 1 := by
        rw [List.length_take]
        omega
      have h2 : (p.take (k + 1)).dropLast = d := by
        rw [dropLast_take_succ (by omega), heq]
      exact (hnochild (p.take (k + 1)) h1 h2).2 hchild
    · have hk1e : k + 1 = p.length := by omega
      have h1 : p.length = d.length + 1 := by omega
      have h2 : p.dropLast = d := by
        rw [dropLast_eq_take_sub_one]
        rw [show p.length - 1 = k by omega, heq]
      exact (hnochild p h1 h2).1 hp
  · intro p hp hmem
    exact hnb p hp (mem_rmDir.mp hmem).1
  · intro e he j hj
    rw [mem_rmDir] at he
    rw [mem_rmDir]
    refine ⟨hcl e he.1 j hj, ?_⟩
    intro heq
    have hdlen : d.length = j := by
      rw [← heq, List.length_take]
      omega
    have hjlt : j < e.length := by
      rcases Nat.lt_or_ge j e.length with h | h
      · exact h
      · exfalso
        have hje : j = e.length := by omega
        apply he.2
        rw [← heq, hje, List.take_length]
    have hchild := hcl e he.1 (j + 1) (by omega)
    have h1 : (e.take (j + 1)).length = d.length + 1 := by
      rw [List.length_take]
      omega
    have h2 : (e.take (j + 1)).dropLast = d := by
      rw [dropLast_take_succ hjlt, heq]
    exact (hnochild (e.take (j + 1)) h1 h2).2 hchild

theorem pruneLoop_files {rf : Path → Bool} {fuel : Nat} {fs : FS} {d : Path} :
    (pruneLoop rf fuel fs d).outFiles = fs.outFiles ∧
      (pruneLoop rf fuel fs d).srcExists = fs.srcExists ∧
      (pruneLoop rf fuel fs d).srcFiles = fs.srcFiles ∧
      (pruneLoop rf fuel fs d).srcDirs = fs.srcDirs := by
  induction fuel generalizing fs d with
  | zero => exact ⟨rfl, rfl, rfl, rfl⟩
  | succ n ih =>
    simp only [pruneLoop]
    by_cases h₁ : d = []
    · rw [if_pos h₁]
      exact ⟨rfl, rfl, rfl, rfl⟩
    · rw [if_neg h₁]
      by_cases h₂ : rf d = true
      · rw [if_pos h₂]
        exact ⟨rfl, rfl, rfl, rfl⟩
      · rw [if_neg h₂]
        by_cases h₃ : hasChildEntry fs d = true
        · rw [if_pos h₃]
          exact ⟨rfl, rfl, rfl, rfl⟩
        · rw [if_neg h₃]
          exact @ih (rmDir fs d) d.dropLast

theorem pruneLoop_dirs_sub {rf : Path → Bool} {fuel : Nat} {fs : FS} {d : Path} :
    (pruneLoop rf fuel fs d).outDirs ⊆ fs.outDirs := by
  induction fuel generalizing fs d with
  | zero => exact fun e he => he
  | succ n ih =>
    simp only [pruneLoop]
    by_cases h₁ : d = []
    · rw [if_pos h₁]
      exact fun e he => he
    · rw [if_neg h₁]
      by_cases h₂ : rf d = true
      · rw [if_pos h₂]
        exact fun e he => he
      · rw [if_neg h₂]
        by_cases h₃ : hasChildEntry fs d = true
        · rw [if_pos h₃]
          exact fun e he => he
        · rw [if_neg h₃]
          intro e he
          exact (mem_rmDir.mp (ih he)).1

theorem pruneLoop_removed {rf : Path → Bool} {fuel : Nat} {fs : FS} {d e : Path}
    (hin : e ∈ fs.outDirs) (hout : e ∉ (pruneLoop rf fuel fs d).outDirs) :
    ∃ i, 0 < i ∧ i ≤ d.length ∧ e = d.take i := by
  induction fuel generalizing fs d with
  | zero => exact absurd hin hout
  | succ n ih =>
    simp only [pruneLoop] at hout
    by_cases h₁ : d = []
    · rw [if_pos h₁] at hout
      exact absurd hin hout
    · rw [if_neg h₁] at hout
      by_cases h₂ : rf d = true
      · rw [if_pos h₂] at hout
        exact absurd hin hout
      · rw [if_neg h₂] at hout
        by_cases h₃ : hasChildEntry fs d = true
        · rw [if_pos h₃] at hout
          exact absurd hin hout
        · rw [if_neg h₃] at hout
          by_cases hed : e = d
          · refine ⟨d.length, ?_, Nat.le_refl _, by rw [hed, List.take_length]⟩
            have : d.length ≠ 0 := fun h0 => h₁ (List.eq_nil_of_length_eq_zero h0)
            omega
          · have hin2 : e ∈ (rmDir fs d).outDirs := mem_rmDir.mpr ⟨hin, hed⟩
            obtain ⟨i, hi0, hile, hie⟩ := ih hin2 hout
            refine ⟨i, hi0, ?_, ?_⟩
            · rw [List.length_dropLast] at hile
              omega
            · rw [hie]
              apply take_dropLast_eq
              rw [List.length_dropLast] at hile
              omega

theorem rmDir_empty_closed {fs : FS} {d : Path} (hcl : dirsClosed fs)
    (hemp : hasChildEntry fs d = false) : dirsClosed (rmDir fs d) := by
  intro e he j hj
  rw [mem_rmDir] at he
  rw [mem_rmDir]
  refine ⟨hcl e he.1 j hj, ?_⟩
  intro heq
  have hdlen : d.length = j := by
    rw [← heq, List.length_take]
    omega
  have hjlt : j < e.length := by
    rcases Nat.lt_or_ge j e.length with h | h
    · exact h
    · exfalso
      have hje : j = e.length := by omega
      apply he.2
      rw [← heq, hje, List.take_length]
  have hchild := hcl e he.1 (j + 1) (by omega)
  have h1 : (e.take (j + 1)).length = d.length + 1 := by
    rw [List.length_take]
    omega
  have h2 : (e.take (j + 1)).dropLast = d := by
    rw [dropLast_take_succ hjlt, heq]
  have : hasChildEntry fs d = true :=
    hasChildEntry_iff.mpr (Or.inr ⟨e.take (j + 1), hchild, h1, h2⟩)
  rw [this] at hemp
  cases hemp

theorem pruneLoop_no_empty {rf : Path → Bool} (hrf : ∀ x, rf x = false) :
    ∀ (fuel : Nat) (fs : FS) (d : Path), d.length ≤ fuel → d ∈ fs.outDirs →
      dirsClosed fs →
      ∀ k, 0 < k → k ≤ d.length → d.take k ∈ (pruneLoop rf fuel fs d).outDirs →
        hasChildEntry (pruneLoop rf fuel fs d) (d.take k) = true := by
  intro fuel
  induction fuel with
  | zero =>
    intro fs d hfuel hd hcl k hk0 hkd hmem
    omega
  | succ n ih =>
    intro fs d hfuel hd hcl k hk0 hkd hmem
    by_cases h₁ : d = []
    · rw [h₁] at hkd
      simp at hkd
      omega
    · have hrneg : ¬(rf d = true) := by
        rw [hrf d]
        simp
      simp only [pruneLoop] at hmem ⊢
      rw [if_neg h₁, if_neg hrneg] at hmem ⊢
      by_cases h₃ : hasChildEntry fs d = true
      · rw [if_pos h₃] at hmem ⊢
        by_cases hke : k = d.length
        · rw [hke, List.take_length]
          exact h₃
        · have hklt : k < d.length := by omega
          have hchild := hcl d hd (k + 1) (by omega)
          apply hasChildEntry_iff.mpr
          refine Or.inr ⟨d.take (k + 1), hchild, ?_, ?_⟩
          · rw [List.length_take, List.length_take]
            omega
          · rw [dropLast_take_succ hklt]
      · rw [if_neg h₃] at hmem ⊢
        by_cases hke : k = d.length
        · exfalso
          have hmem2 : d.take k ∈ (rmDir fs d).outDirs := pruneLoop_dirs_sub hmem
          rw [hke, List.take_length] at hmem2
          exact (mem_rmDir.mp hmem2).2 rfl
        · have hklt : k < d.length := by omega
          have hk1 : k ≤ d.length - 1 := by omega
          have hlen1 : 0 < d.length := List.length_pos.mpr h₁
          have hd' : d.dropLast ∈ (rmDir fs d).outDirs := by
            rw [mem_rmDir]
            constructor
            · rw [dropLast_eq_take_sub_one]
              exact hcl d hd (d.length - 1) (by omega)
            · intro heq
              have := congrArg List.length heq
              rw [List.length_dropLast] at this
              omega
          have hcl' : dirsClosed (rmDir fs d) :=
            rmDir_empty_closed hcl (Bool.eq_false_iff.mpr h₃)
          have hfuel' : d.dropLast.length ≤ n := by
            rw [List.length_dropLast]
            omega
          have hkd' : k ≤ d.dropLast.length := by
            rw [List.length_dropLast]
            omega
          rw [← take_dropLast_eq hk1] at hmem ⊢
          exact ih (rmDir fs d) d.dropLast hfuel' hd' hcl' k hk0 hkd' hmem

theorem pruneLoop_WF {rf : Path → Bool} {fuel : Nat} {fs : FS} {d : Path}
    (hWF : WF fs) : WF (pruneLoop rf fuel fs d) := by
  induction fuel generalizing fs d with
  | zero => exact hWF
  | succ n ih =>
    simp only [pruneLoop]
    by_cases h₁ : d = []
    · rw [if_pos h₁]
      exact hWF
    · rw [if_neg h₁]
      by_cases h₂ : rf d = true
      · rw [if_pos h₂]
        exact hWF
      · rw [if_neg h₂]
        by_cases h₃ : hasChildEntry fs d = true
        · rw [if_pos h₃]
          exact hWF
        · rw [if_neg h₃]
          exact @ih (rmDir fs d) d.dropLast (rmDir_empty_WF hWF (Bool.eq_false_iff.mpr h₃))

/-! ## The deletion phase -/

theorem alookup_mem {α : Type} {l : List (Path × α)} {p : Path} {v : α}
    (h : alookup l p = some v) : (p, v) ∈ l := by
  induction l with
  | nil => cases h
  | cons a l ih =>
    obtain ⟨a1, a2⟩ := a
    simp only [alookup] at h
    by_cases ha : a1 = p
    · rw [if_pos ha] at h
      injection h with hv
      rw [← ha, ← hv]
      exact List.mem_cons_self _ _
    · rw [if_neg ha] at h
      exact List.mem_cons_of_mem _ (ih h)

theorem hasChildEntry_of_file {fs : FS} {a q : Path} {v : FileData}
    (hmem : (q, v) ∈ fs.outFiles) (hlen : q.length = a.length + 1)
    (hdrop : q.dropLast = a) : hasChildEntry fs a = true :=
  hasChildEntry_iff.mpr (Or.inl ⟨(q, v), hmem, hlen, hdrop⟩)

theorem hasChildEntry_of_dir {fs : FS} {a e : Path}
    (hmem : e ∈ fs.outDirs) (hlen : e.length = a.length + 1)
    (hdrop : e.dropLast = a) : hasChildEntry fs a = true :=
  hasChildEntry_iff.mpr (Or.inr ⟨e, hmem, hlen, hdrop⟩)

theorem unlinkFile_ok_inv {fs fs₁ : FS} {p : Path}
    (h : unlinkFile fs p = .ok fs₁) :
    p ∉ fs.outDirs ∧ isFile fs p = true ∧ fs₁ = unlinkState fs p := by
  unfold unlinkFile at h
  by_cases h₁ : isDir fs p = true
  · rw [if_pos h₁] at h
    cases h
  · rw [if_neg h₁] at h
    by_cases h₂ : isFile fs p = true
    · rw [if_pos h₂] at h
      cases h
      refine ⟨?_, h₂, rfl⟩
      intro hmem
      exact h₁ (decide_eq_true hmem)
    · rw [if_neg h₂] at h
      cases h

theorem unlinkState_dirs {fs : FS} {p : Path} :
    (unlinkState fs p).outDirs = fs.outDirs := rfl

theorem unlinkState_files {fs : FS} {p : Path} :
    (unlinkState fs p).outFiles = removeFile fs.outFiles p := rfl

theorem unlink_WF {fs : FS} {p : Path} (hWF : WF fs) : WF (unlinkState fs p) := by
  obtain ⟨hne, hanc, hnb, hcl⟩ := hWF
  refine ⟨?_, ?_, ?_, ?_⟩
  · intro q hq
    rw [← alookup_isSome_iff, unlinkState_files, alookup_isSome_iff] at hq
    exact hne q (mem_keys_removeFile hq).1
  · intro q hq k hk
    rw [← alookup_isSome_iff, unlinkState_files, alookup_isSome_iff] at hq
    exact hanc q (mem_keys_removeFile hq).1 k hk
  · intro q hq
    rw [← alookup_isSome_iff, unlinkState_files, alookup_isSome_iff] at hq
    exact hnb q (mem_keys_removeFile hq).1
  · exact hcl

theorem pruneLoop_root {rf : Path → Bool} {fuel : Nat} {fs : FS} {d : Path}
    (h : [] ∈ fs.outDirs) : [] ∈ (pruneLoop rf fuel fs d).outDirs := by
  by_cases hmem : [] ∈ (pruneLoop rf fuel fs d).outDirs
  · exact hmem
  · exfalso
    obtain ⟨i, hi0, hile, hie⟩ := pruneLoop_removed h hmem
    have := congrArg List.length hie
    rw [List.length_take] at this
    simp at this
    omega

theorem deleteOrphans_state {rf : Path → Bool} {ps : List Path} {fs : FS} :
    (∀ q, q ∉ ps →
      alookup (delFS (deleteOrphans rf ps fs)).outFiles q = alookup fs.outFiles q) ∧
      (delFS (deleteOrphans rf ps fs)).outDirs ⊆ fs.outDirs ∧
      ([] ∈ fs.outDirs → [] ∈ (delFS (deleteOrphans rf ps fs)).outDirs) ∧
      (delFS (deleteOrphans rf ps fs)).srcExists = fs.srcExists ∧
      (delFS (deleteOrphans rf ps fs)).srcFiles = fs.srcFiles ∧
      (delFS (deleteOrphans rf ps fs)).srcDirs = fs.srcDirs ∧
      (∀ x ∈ delDS (deleteOrphans rf ps fs), x ∈ ps) := by
  induction ps generalizing fs with
  | nil =>
    exact ⟨fun q _ => rfl, fun e he => he, fun h => h, rfl, rfl, rfl,
      fun x hx => absurd hx (List.not_mem_nil x)⟩
  | cons p rest ih =>
    simp only [deleteOrphans]
    cases hunl : unlinkFile fs p with
    | error e =>
      exact ⟨fun q _ => rfl, fun e he => he, fun h => h, rfl, rfl, rfl,
        fun x hx => absurd hx (List.not_mem_nil x)⟩
    | ok fsu =>
      obtain ⟨hnd, hf, hfsu⟩ := unlinkFile_ok_inv hunl
      have hprune := @pruneLoop_files rf p.dropLast.length fsu p.dropLast
      obtain ⟨ih₁, ih₂, ih₃, ih₄, ih₅, ih₆, ih₇⟩ :=
        @ih (pruneUp rf fsu p.dropLast)
      dsimp only
      cases hrest : deleteOrphans rf rest (pruneUp rf fsu p.dropLast) with
      | error E =>
        obtain ⟨e₂, fs₃, ds⟩ := E
        rw [hrest] at ih₁ ih₂ ih₃ ih₄ ih₅ ih₆ ih₇
        dsimp only [delFS, delDS] at ih₁ ih₂ ih₃ ih₄ ih₅ ih₆ ih₇ ⊢
        refine ⟨?_, ?_, ?_, ?_, ?_, ?_, ?_⟩
        · intro q hq
          have hqp : q ≠ p := fun he => hq (he ▸ List.mem_cons_self p rest)
          rw [ih₁ q (fun hm => hq (List.mem_cons_of_mem p hm))]
          unfold pruneUp at hprune ⊢
          rw [hprune.1, hfsu, unlinkState_files]
          exact alookup_removeFile_ne hqp
        · intro e he
          have h2 := pruneLoop_dirs_sub (ih₂ he)
          rw [hfsu, unlinkState_dirs] at h2
          exact h2
        · intro hroot
          apply ih₃
          apply pruneLoop_root
          rw [hfsu, unlinkState_dirs]
          exact hroot
        · rw [ih₄]
          unfold pruneUp
          rw [hprune.2.1, hfsu]
          rfl
        · rw [ih₅]
          unfold pruneUp
          rw [hprune.2.2.1, hfsu]
          rfl
        · rw [ih₆]
          unfold pruneUp
          rw [hprune.2.2.2, hfsu]
          rfl
        · intro x hx
          rcases List.mem_cons.mp hx with rfl | hx
          · exact List.mem_cons_self x rest
          · exact List.mem_cons_of_mem p (ih₇ x hx)
      | ok Q =>
        obtain ⟨fs₃, ds⟩ := Q
        rw [hrest] at ih₁ ih₂ ih₃ ih₄ ih₅ ih₆ ih₇
        dsimp only [delFS, delDS] at ih₁ ih₂ ih₃ ih₄ ih₅ ih₆ ih₇ ⊢
        refine ⟨?_, ?_, ?_, ?_, ?_, ?_, ?_⟩
        · intro q hq
          have hqp : q ≠ p := fun he => hq (he ▸ List.mem_cons_self p rest)
          rw [ih₁ q (fun hm => hq (List.mem_cons_of_mem p hm))]
          unfold pruneUp at hprune ⊢
          rw [hprune.1, hfsu, unlinkState_files]
          exact alookup_removeFile_ne hqp
        · intro e he
          have h2 := pruneLoop_dirs_sub (ih₂ he)
          rw [hfsu, unlinkState_dirs] at h2
          exact h2
        · intro hroot
          apply ih₃
          apply pruneLoop_root
          rw [hfsu, unlinkState_dirs]
          exact hroot
        · rw [ih₄]
          unfold pruneUp
          rw [hprune.2.1, hfsu]
          rfl
        · rw [ih₅]
          unfold pruneUp
          rw [hprune.2.2.1, hfsu]
          rfl
        · rw [ih₆]
          unfold pruneUp
          rw [hprune.2.2.2, hfsu]
          rfl
        · intro x hx
          rcases List.mem_cons.mp hx with rfl | hx
          · exact List.mem_cons_self x rest
          · exact List.mem_cons_of_mem p (ih₇ x hx)

theorem deleteOrphans_ok_inv {rf : Path → Bool} {p : Path} {rest : List Path}
    {fs fs₃ : FS} {ds : List Path}
    (h : deleteOrphans rf (p :: rest) fs = .ok (fs₃, ds)) :
    ∃ fsu ds₂, unlinkFile fs p = .ok fsu ∧
      deleteOrphans rf rest (pruneUp rf fsu p.dropLast) = .ok (fs₃, ds₂) ∧
      ds = p :: ds₂ := by
  simp only [deleteOrphans] at h
  cases hunl : unlinkFile fs p with
  | error e =>
    rw [hunl] at h
    cases h
  | ok fsu =>
    rw [hunl] at h
    dsimp only at h
    cases hrest : deleteOrphans rf rest (pruneUp rf fsu p.dropLast) with
    | error E =>
      obtain ⟨e₂, fsx, dsx⟩ := E
      rw [hrest] at h
      cases h
    | ok Q =>
      obtain ⟨fsx, dsx⟩ := Q
      rw [hrest] at h
      dsimp only at h
      injection h with h₁
      injection h₁ with h₂ h₃
      refine ⟨fsu, dsx, rfl, ?_, h₃.symm⟩
      rw [h₂] at hrest
      exact hrest

theorem deleteOrphans_WF {rf : Path → Bool} {ps : List Path} {fs : FS}
    (hWF : WF fs) : WF (delFS (deleteOrphans rf ps fs)) := by
  induction ps generalizing fs with
  | nil => exact hWF
  | cons p rest ih =>
    simp only [deleteOrphans]
    cases hunl : unlinkFile fs p with
    | error e => exact hWF
    | ok fsu =>
      obtain ⟨-, -, hfsu⟩ := unlinkFile_ok_inv hunl
      dsimp only
      have hWF₂ : WF (pruneUp rf fsu p.dropLast) := by
        unfold pruneUp
        apply pruneLoop_WF
        rw [hfsu]
        exact unlink_WF hWF
      have := @ih (pruneUp rf fsu p.dropLast) hWF₂
      cases hrest : deleteOrphans rf rest (pruneUp rf fsu p.dropLast) with
      | error E =>
        obtain ⟨e₂, fsx, dsx⟩ := E
        rw [hrest] at this
        exact this
      | ok Q =>
        obtain ⟨fsx, dsx⟩ := Q
        rw [hrest] at this
        exact this

theorem deleteOrphans_none_mono {rf : Path → Bool} {ps : List Path} {fs : FS} {q : Path}
    (hq : alookup fs.outFiles q = none) :
    alookup (delFS (deleteOrphans rf ps fs)).outFiles q = none := by
  induction ps generalizing fs with
  | nil => exact hq
  | cons p rest ih =>
    simp only [deleteOrphans]
    cases hunl : unlinkFile fs p with
    | error e => exact hq
    | ok fsu =>
      obtain ⟨-, -, hfsu⟩ := unlinkFile_ok_inv hunl
      dsimp only
      have hq₂ : alookup (pruneUp rf fsu p.dropLast).outFiles q = none := by
        unfold pruneUp
        rw [(@pruneLoop_files rf p.dropLast.length fsu p.dropLast).1, hfsu,
          unlinkState_files]
        by_cases hqp : q = p
        · rw [hqp]
          exact alookup_removeFile_self
        · rw [alookup_removeFile_ne hqp]
          exact hq
      have := @ih (pruneUp rf fsu p.dropLast) hq₂
      cases hrest : deleteOrphans rf rest (pruneUp rf fsu p.dropLast) with
      | error E =>
        obtain ⟨e₂, fsx, dsx⟩ := E
        rw [hrest] at this
        exact this
      | ok Q =>
        obtain ⟨fsx, dsx⟩ := Q
        rw [hrest] at this
        exact this

theorem deleteOrphans_deleted {rf : Path → Bool} {ps : List Path} {fs fs₃ : FS}
    {ds : List Path} (h : deleteOrphans rf ps fs = .ok (fs₃, ds)) :
    ∀ p ∈ ps, alookup fs₃.outFiles p = none := by
  induction ps generalizing fs ds with
  | nil => exact fun p hp => absurd hp (List.not_mem_nil p)
  | cons p rest ih =>
    obtain ⟨fsu, ds₂, hunl, hrest, -⟩ := deleteOrphans_ok_inv h
    obtain ⟨-, -, hfsu⟩ := unlinkFile_ok_inv hunl
    intro x hx
    rcases List.mem_cons.mp hx with rfl | hx
    · have hnone : alookup (pruneUp rf fsu x.dropLast).outFiles x = none := by
        unfold pruneUp
        rw [(@pruneLoop_files rf x.dropLast.length fsu x.dropLast).1, hfsu,
          unlinkState_files]
        exact alookup_removeFile_self
      have := @deleteOrphans_none_mono rf rest (pruneUp rf fsu x.dropLast) x hnone
      rw [hrest] at this
      exact this
    · exact ih hrest x hx

theorem deleteOrphans_log {rf : Path → Bool} {ps : List Path} {fs fs₃ : FS}
    {ds : List Path} (h : deleteOrphans rf ps fs = .ok (fs₃, ds)) : ds = ps := by
  induction ps generalizing fs ds with
  | nil =>
    simp only [deleteOrphans] at h
    injection h with h₁
    injection h₁ with h₂ h₃
    exact h₃.symm
  | cons p rest ih =>
    obtain ⟨fsu, ds₂, hunl, hrest, hds⟩ := deleteOrphans_ok_inv h
    rw [hds, ih hrest]

theorem deleteOrphans_not_dir {rf : Path → Bool} {ps : List Path} {fs fs₃ : FS}
    {ds : List Path} (h : deleteOrphans rf ps fs = .ok (fs₃, ds)) :
    ∀ p ∈ ps, p ∉ fs₃.outDirs := by
  induction ps generalizing fs ds with
  | nil => exact fun p hp => absurd hp (List.not_mem_nil p)
  | cons p rest ih =>
    obtain ⟨fsu, ds₂, hunl, hrest, -⟩ := deleteOrphans_ok_inv h
    obtain ⟨hnd, -, hfsu⟩ := unlinkFile_ok_inv hunl
    intro x hx
    rcases List.mem_cons.mp hx with rfl | hx
    · intro hmem
      have hsub := (@deleteOrphans_state rf rest (pruneUp rf fsu x.dropLast)).2.1
      rw [hrest] at hsub
      have h2 := pruneLoop_dirs_sub (hsub hmem)
      rw [hfsu, unlinkState_dirs] at h2
      exact hnd h2
    · exact ih hrest x hx

theorem deleteOrphans_dirs_removed {rf : Path → Bool} {ps : List Path} {fs : FS}
    {e : Path} (hin : e ∈ fs.outDirs)
    (hout : e ∉ (delFS (deleteOrphans rf ps fs)).outDirs) :
    ∃ q ∈ ps, ∃ j, 0 < j ∧ j < q.length ∧ e = q.take j := by
  induction ps generalizing fs with
  | nil => exact absurd hin hout
  | cons p rest ih =>
    simp only [deleteOrphans] at hout
    cases hunl : unlinkFile fs p with
    | error e₂ =>
      rw [hunl] at hout
      exact absurd hin hout
    | ok fsu =>
      obtain ⟨-, -, hfsu⟩ := unlinkFile_ok_inv hunl
      rw [hunl] at hout
      dsimp only at hout
      by_cases hmid : e ∈ (pruneUp rf fsu p.dropLast).outDirs
      · have hrec : e ∉ (delFS (deleteOrphans rf rest (pruneUp rf fsu p.dropLast))).outDirs := by
          intro hmem
          apply hout
          cases hrest : deleteOrphans rf rest (pruneUp rf fsu p.dropLast) with
          | error E =>
            obtain ⟨e₃, fsx, dsx⟩ := E
            rw [hrest] at hmem
            exact hmem
          | ok Q =>
            obtain ⟨fsx, dsx⟩ := Q
            rw [hrest] at hmem
            exact hmem
        obtain ⟨q, hq, j, hj0, hjlt, hje⟩ := ih hmid hrec
        exact ⟨q, List.mem_cons_of_mem p hq, j, hj0, hjlt, hje⟩
      · have hin2 : e ∈ fsu.outDirs := by
          rw [hfsu, unlinkState_dirs]
          exact hin
        obtain ⟨i, hi0, hile, hie⟩ := pruneLoop_removed hin2 hmid
        refine ⟨p, List.mem_cons_self p rest, i, hi0, ?_, ?_⟩
        · rw [List.length_dropLast] at hile
          omega
        · rw [hie]
          apply take_dropLast_eq
          rw [List.length_dropLast] at hile
          omega

theorem hasChildEntry_of_key {fs : FS} {a q : Path}
    (hmem : q ∈ fs.outFiles.map (fun z => z.1)) (hlen : q.length = a.length + 1)
    (hdrop : q.dropLast = a) : hasChildEntry fs a = true := by
  rw [List.mem_map] at hmem
  obtain ⟨z, hz, hz1⟩ := hmem
  apply hasChildEntry_iff.mpr
  exact Or.inl ⟨z, hz, by rw [hz1]; exact hlen, by rw [hz1]; exact hdrop⟩

theorem deleteOrphans_no_empty {rf : Path → Bool} (hrf : ∀ x, rf x = false) :
    ∀ (ps : List Path) (fs fs₃ : FS) (ds : List Path), WF fs →
      deleteOrphans rf ps fs = .ok (fs₃, ds) →
      ∀ x ∈ ps, ∀ k, 0 < k → k < x.length → x.take k ∈ fs₃.outDirs →
        hasChildEntry fs₃ (x.take k) = true := by
  intro ps
  induction ps with
  | nil =>
    intro fs fs₃ ds hWF h x hx
    exact absurd hx (List.not_mem_nil x)
  | cons p rest ih =>
    intro fs fs₃ ds hWF h x hx k hk0 hklt hmem
    obtain ⟨fsu, ds₂, hunl, hrest, -⟩ := deleteOrphans_ok_inv h
    obtain ⟨hnd, hfile, hfsu⟩ := unlinkFile_ok_inv hunl
    have hWFu : WF fsu := by
      rw [hfsu]
      exact unlink_WF hWF
    have hWF₂ : WF (pruneUp rf fsu p.dropLast) := by
      unfold pruneUp
      exact pruneLoop_WF hWFu
    rcases List.mem_cons.mp hx with rfl | hx
    · -- the head orphan: its surviving strict ancestors are nonempty
      have hsub : fs₃.outDirs ⊆ (pruneUp rf fsu x.dropLast).outDirs := by
        have h2 := (@deleteOrphans_state rf rest (pruneUp rf fsu x.dropLast)).2.1
        rw [hrest] at h2
        exact h2
      have hmem₂ : x.take k ∈ (pruneUp rf fsu x.dropLast).outDirs := hsub hmem
      have hxkeys : x ∈ fs.outFiles.map (fun z => z.1) := by
        rw [← alookup_isSome_iff]
        exact hfile
      have hxlen : 0 < x.length :=
        List.length_pos.mpr (hWF.1 x hxkeys)
      have hdanc : x.dropLast ∈ fsu.outDirs := by
        rw [hfsu, unlinkState_dirs, dropLast_eq_take_sub_one]
        exact hWF.2.1 x hxkeys (x.length - 1) (by omega)
      have hk1 : k ≤ x.length - 1 := by omega
      have hkd : k ≤ x.dropLast.length := by
        rw [List.length_dropLast]
        omega
      have hchild₂ : hasChildEntry (pruneUp rf fsu x.dropLast) (x.take k) = true := by
        rw [← take_dropLast_eq hk1] at hmem₂ ⊢
        unfold pruneUp at hmem₂ ⊢
        exact pruneLoop_no_empty hrf x.dropLast.length fsu x.dropLast (Nat.le_refl _)
          hdanc hWFu.2.2.2 k hk0 hkd hmem₂
      have hklen : (x.take k).length = k := by
        rw [List.length_take]
        omega
      rcases hasChildEntry_iff.mp hchild₂ with ⟨z, hzmem, hzlen, hzdrop⟩ |
        ⟨e, hemem, helen, hedrop⟩
      · -- a file child of the ancestor in the intermediate state
        by_cases hpres : (alookup fs₃.outFiles z.1).isSome = true
        · exact hasChildEntry_of_key (alookup_isSome_iff.mp hpres) hzlen hzdrop
        · have hnone : alookup fs₃.outFiles z.1 = none := by
            cases halv : alookup fs₃.outFiles z.1 with
            | none => rfl
            | some v =>
              rw [halv] at hpres
              exact absurd rfl hpres
          have hz2 : z.1 ∈ (pruneUp rf fsu x.dropLast).outFiles.map (fun w => w.1) :=
            List.mem_map.mpr ⟨z, hzmem, rfl⟩
          have hzrest : z.1 ∈ rest := by
            by_contra hzr
            have hfr := (@deleteOrphans_state rf rest (pruneUp rf fsu x.dropLast)).1 z.1 hzr
            rw [hrest] at hfr
            dsimp only [delFS] at hfr
            rw [hfr] at hnone
            rw [alookup_eq_none_iff] at hnone
            exact hnone hz2
          have hz0 : 0 < z.1.length - 1 := by
            rw [hzlen, hklen]
            omega
          have hzdrop2 : z.1.take (z.1.length - 1) = x.take k := by
            rw [← dropLast_eq_take_sub_one]
            exact hzdrop
          have := ih (pruneUp rf fsu x.dropLast) fs₃ ds₂ hWF₂ hrest z.1 hzrest
            (z.1.length - 1) hz0 (by omega) (by rw [hzdrop2]; exact hmem)
          rw [hzdrop2] at this
          exact this
      · -- a directory child of the ancestor in the intermediate state
        by_cases hpres : e ∈ fs₃.outDirs
        · exact hasChildEntry_of_dir hpres helen hedrop
        · have hrem : e ∉ (delFS (deleteOrphans rf rest (pruneUp rf fsu x.dropLast))).outDirs := by
            rw [hrest]
            exact hpres
          obtain ⟨q, hq, j, hj0, hjlt, hje⟩ := deleteOrphans_dirs_removed hemem hrem
          have hjd : e.dropLast = q.take (j - 1) := by
            rw [hje]
            rw [show j = (j - 1) + 1 by omega] at hjlt ⊢
            exact dropLast_take_succ (by omega)
          have haq : q.take (j - 1) = x.take k := by
            rw [← hjd, hedrop]
          have hj1 : 0 < j - 1 := by
            have : (q.take (j - 1)).length = k := by
              rw [haq, hklen]
            rw [List.length_take] at this
            omega
          have := ih (pruneUp rf fsu x.dropLast) fs₃ ds₂ hWF₂ hrest q hq
            (j - 1) hj1 (by omega) (by rw [haq]; exact hmem)
          rw [haq] at this
          exact this
    · exact ih (pruneUp rf fsu p.dropLast) fs₃ ds₂ hWF₂ hrest x hx k hk0 hklt hmem

/-! ## The orphan scan -/

theorem mem_findOrphans {fs : FS} {image : List Path} {q : Path} :
    q ∈ findOrphans fs image ↔
      isDir fs [] = true ∧ (q ∈ fs.outFiles.map (fun z => z.1) ∨ q ∈ fs.outDirs) ∧
        jsonName q = true ∧ q ∉ image := by
  unfold findOrphans
  by_cases hroot : isDir fs [] = true
  · rw [if_pos hroot]
    rw [List.mem_filter, List.mem_append]
    constructor
    · rintro ⟨hmem, hcond⟩
      rw [Bool.and_eq_true, Bool.not_eq_true', decide_eq_false_iff_not] at hcond
      exact ⟨hroot, hmem, hcond.1, hcond.2⟩
    · rintro ⟨-, hmem, hjson, himg⟩
      refine ⟨hmem, ?_⟩
      rw [Bool.and_eq_true, Bool.not_eq_true', decide_eq_false_iff_not]
      exact ⟨hjson, himg⟩
  · rw [if_neg hroot]
    constructor
    · intro hmem
      exact absurd hmem (List.not_mem_nil q)
    · rintro ⟨h, -⟩
      exact absurd h hroot

/-! ## C9: files without the .json suffix are never touched -/

/-- C9: a run never identifies as an orphan, never deletes, and never
rewrites any output file whose name does not end in .json, whatever the
source tree: rglob limits both the orphan scan and all artifact writes
to .json names. -/
theorem run_never_touches_non_json (env : Env) (rf : Path → Bool) (s : FS) (p : Path)
    (hp : jsonName p = false) :
    alookup (stateOf (run env rf s)).outFiles p = alookup s.outFiles p ∧
      p ∉ deletesOf (run env rf s) ∧
      (∀ (fsx : FS) (image : List Path), p ∉ findOrphans fsx image) := by
  have hscan : ∀ (fsx : FS) (image : List Path), p ∉ findOrphans fsx image := by
    intro fsx image hmem
    have := (mem_findOrphans.mp hmem).2.2.1
    rw [hp] at this
    cases this
  have hnotart : ∀ d : Path, artifactPath d ≠ p := by
    intro d he
    have := jsonName_artifactPath d
    rw [he, hp] at this
    cases this
  refine ⟨?_, ?_, hscan⟩ <;> unfold run
  · cases hsrc : s.srcExists with
    | false => rfl
    | true =>
      dsimp only [Bool.not_true]
      rw [if_neg (by simp)]
      cases hmk : mkdirParents env s [] with
      | error E =>
        obtain ⟨e, fsE⟩ := E
        have hst := @mkdirEach_any_state env (prefixesOf []) s
        unfold mkdirParents at hmk
        rw [hmk] at hst
        dsimp only [eachFS] at hst
        dsimp only [stateOf]
        rw [hst.1]
      | ok fs₀ =>
        have hf₀ : fs₀.outFiles = s.outFiles := (mkdirParents_fields hmk).2.2.2
        dsimp only
        have hloop := (@processLoop_any_state env (discover fs₀) fs₀ 0 0 []).2 p
          (fun d _ => hnotart d)
        cases hlp : processLoop env (discover fs₀) fs₀ 0 0 [] with
        | error E =>
          obtain ⟨e, fsE, pr, sk, ws⟩ := E
          rw [hlp] at hloop
          dsimp only [loopFS] at hloop
          dsimp only [stateOf]
          rw [hloop, hf₀]
        | ok Q =>
          obtain ⟨fs₁, pr, sk, ws⟩ := Q
          rw [hlp] at hloop
          dsimp only [loopFS] at hloop
          dsimp only
          have hdel := (@deleteOrphans_state rf
            (findOrphans fs₁ (imagePaths (discover fs₀))) fs₁).1 p
            (hscan fs₁ (imagePaths (discover fs₀)))
          cases hdo : deleteOrphans rf (findOrphans fs₁ (imagePaths (discover fs₀))) fs₁ with
          | error E =>
            obtain ⟨e, fs₂, ds⟩ := E
            rw [hdo] at hdel
            dsimp only [delFS] at hdel
            dsimp only [stateOf]
            rw [hdel, hloop, hf₀]
          | ok Q₂ =>
            obtain ⟨fs₂, ds⟩ := Q₂
            rw [hdo] at hdel
            dsimp only [delFS] at hdel
            dsimp only [stateOf]
            rw [hdel, hloop, hf₀]
  · cases hsrc : s.srcExists with
    | false =>
      intro hmem
      exact absurd hmem (List.not_mem_nil p)
    | true =>
      dsimp only [Bool.not_true]
      rw [if_neg (by simp)]
      cases hmk : mkdirParents env s [] with
      | error E =>
        obtain ⟨e, fsE⟩ := E
        intro hmem
        exact absurd hmem (List.not_mem_nil p)
      | ok fs₀ =>
        dsimp only
        cases hlp : processLoop env (discover fs₀) fs₀ 0 0 [] with
        | error E =>
          obtain ⟨e, fsE, pr, sk, ws⟩ := E
          intro hmem
          exact absurd hmem (List.not_mem_nil p)
        | ok Q =>
          obtain ⟨fs₁, pr, sk, ws⟩ := Q
          dsimp only
          have hds := (@deleteOrphans_state rf
            (findOrphans fs₁ (imagePaths (discover fs₀))) fs₁).2.2.2.2.2.2
          cases hdo : deleteOrphans rf (findOrphans fs₁ (imagePaths (discover fs₀))) fs₁ with
          | error E =>
            obtain ⟨e, fs₂, ds⟩ := E
            rw [hdo] at hds
            dsimp only [delDS] at hds
            dsimp only [deletesOf]
            intro hmem
            exact hscan fs₁ (imagePaths (discover fs₀)) (hds p hmem)
          | ok Q₂ =>
            obtain ⟨fs₂, ds⟩ := Q₂
            rw [hdo] at hds
            dsimp only [delDS] at hds
            dsimp only [deletesOf]
            intro hmem
            exact hscan fs₁ (imagePaths (discover fs₀)) (hds p hmem)

/-- Witness for C9: a run over an output tree holding notes.txt leaves
it in place while deleting the orphaned stale.json next to it. -/
theorem run_never_touches_non_json_witness :
    jsonName ["notes.txt"] = false ∧
      alookup (stateOf (run envId rfNone fsC9)).outFiles ["notes.txt"] =
        alookup fsC9.outFiles ["notes.txt"] ∧
      ["notes.txt"] ∉ deletesOf (run envId rfNone fsC9) :=
  ⟨rfl, (run_never_touches_non_json envId rfNone fsC9 ["notes.txt"] rfl).1,
    (run_never_touches_non_json envId rfNone fsC9 ["notes.txt"] rfl).2.1⟩

/-! ## The deletion phase does not depend on the rmdir oracle -/

theorem unlink_nofile_error {fs : FS} {p : Path} (h : isFile fs p = false) :
    unlinkFile fs p = .error PyErr.osError := by
  unfold unlinkFile
  by_cases h₁ : isDir fs p = true
  · rw [if_pos h₁]
  · rw [if_neg h₁, h]
    rfl

theorem unlink_file_ok {fs : FS} {p : Path} (hfile : isFile fs p = true)
    (hnb : notBoth fs) : unlinkFile fs p = .ok (unlinkState fs p) := by
  unfold unlinkFile
  have hnd : ¬(isDir fs p = true) := by
    intro hdir
    exact hnb p (by rw [← alookup_isSome_iff]; exact hfile) (of_decide_eq_true hdir)
  rw [if_neg hnd, hfile]
  rfl

theorem prune_notBoth {rf : Path → Bool} {fuel : Nat} {fs : FS} {d : Path}
    (hnb : notBoth fs) : notBoth (pruneLoop rf fuel fs d) := by
  intro p hp hmem
  rw [← alookup_isSome_iff] at hp
  rw [(@pruneLoop_files rf fuel fs d).1] at hp
  exact hnb p (alookup_isSome_iff.mp hp) (pruneLoop_dirs_sub hmem)

theorem unlink_notBoth {fs : FS} {p : Path} (hnb : notBoth fs) :
    notBoth (unlinkState fs p) := by
  intro q hq hmem
  rw [← alookup_isSome_iff, unlinkState_files, alookup_isSome_iff] at hq
  exact hnb q (mem_keys_removeFile hq).1 hmem

theorem deleteOrphans_obs {ps : List Path} {rf₁ rf₂ : Path → Bool} :
    ∀ {fsa fsb : FS}, fsa.outFiles = fsb.outFiles → notBoth fsa → notBoth fsb →
      delObs (deleteOrphans rf₁ ps fsa) = delObs (deleteOrphans rf₂ ps fsb) := by
  induction ps with
  | nil =>
    intro fsa fsb hf hna hnb
    simp only [deleteOrphans, delObs]
    rw [hf]
  | cons p rest ih =>
    intro fsa fsb hf hna hnb
    simp only [deleteOrphans]
    by_cases hfile : isFile fsa p = true
    · have hfileb : isFile fsb p = true := by
        unfold isFile at hfile ⊢
        rw [← hf]
        exact hfile
      rw [unlink_file_ok hfile hna, unlink_file_ok hfileb hnb]
      dsimp only
      have hf₂ : (pruneUp rf₁ (unlinkState fsa p) p.dropLast).outFiles =
          (pruneUp rf₂ (unlinkState fsb p) p.dropLast).outFiles := by
        unfold pruneUp
        rw [(@pruneLoop_files rf₁ p.dropLast.length (unlinkState fsa p) p.dropLast).1,
          (@pruneLoop_files rf₂ p.dropLast.length (unlinkState fsb p) p.dropLast).1,
          unlinkState_files, unlinkState_files, hf]
      have hna₂ : notBoth (pruneUp rf₁ (unlinkState fsa p) p.dropLast) := by
        unfold pruneUp
        exact prune_notBoth (unlink_notBoth hna)
      have hnb₂ : notBoth (pruneUp rf₂ (unlinkState fsb p) p.dropLast) := by
        unfold pruneUp
        exact prune_notBoth (unlink_notBoth hnb)
      have hrec := ih hf₂ hna₂ hnb₂
      cases hca : deleteOrphans rf₁ rest (pruneUp rf₁ (unlinkState fsa p) p.dropLast) with
      | error Ea =>
        obtain ⟨ea, fa, da⟩ := Ea
        cases hcb : deleteOrphans rf₂ rest (pruneUp rf₂ (unlinkState fsb p) p.dropLast) with
        | error Eb =>
          obtain ⟨eb, fb, db⟩ := Eb
          rw [hca, hcb] at hrec
          dsimp only [delObs] at hrec ⊢
          injection hrec with h₁ h₂
          injection h₂ with h₂ h₃
          rw [h₁, h₂, h₃]
        | ok Qb =>
          obtain ⟨fb, db⟩ := Qb
          rw [hca, hcb] at hrec
          dsimp only [delObs] at hrec
          injection hrec with h₁ h₂
          cases h₁
      | ok Qa =>
        obtain ⟨fa, da⟩ := Qa
        cases hcb : deleteOrphans rf₂ rest (pruneUp rf₂ (unlinkState fsb p) p.dropLast) with
        | error Eb =>
          obtain ⟨eb, fb, db⟩ := Eb
          rw [hca, hcb] at hrec
          dsimp only [delObs] at hrec
          injection hrec with h₁ h₂
          cases h₁
        | ok Qb =>
          obtain ⟨fb, db⟩ := Qb
          rw [hca, hcb] at hrec
          dsimp only [delObs] at hrec ⊢
          injection hrec with h₁ h₂
          injection h₂ with h₂ h₃
          rw [h₂, h₃]
    · have hfileb : isFile fsb p = false := by
        unfold isFile at hfile ⊢
        rw [← hf]
        exact Bool.eq_false_iff.mpr hfile
      rw [unlink_nofile_error (Bool.eq_false_iff.mpr hfile), unlink_nofile_error hfileb]
      dsimp only [delObs]
      rw [hf]

/-! ## Run-level cleanup facts -/

theorem run_obs_rf (env : Env) (s : FS) (hWF : WF s) (rf₁ rf₂ : Path → Bool) :
    obsOf (run env rf₁ s) = obsOf (run env rf₂ s) := by
  unfold run
  cases hsrc : s.srcExists with
  | false => rfl
  | true =>
    simp only [Bool.not_true, Bool.false_eq_true, if_false]
    cases hmk : mkdirParents env s [] with
    | error E =>
      obtain ⟨e, fsE⟩ := E
      rfl
    | ok fs₀ =>
      dsimp only
      cases hlp : processLoop env (discover fs₀) fs₀ 0 0 [] with
      | error E =>
        obtain ⟨e, fsE, pr, sk, ws⟩ := E
        rfl
      | ok Q =>
        obtain ⟨fs₁, pr, sk, ws⟩ := Q
        dsimp only
        have hWF₁ : WF fs₁ := processLoop_WF (mkdirParents_main hWF hmk).1 hlp
        have hobs := @deleteOrphans_obs (findOrphans fs₁ (imagePaths (discover fs₀)))
          rf₁ rf₂ fs₁ fs₁ rfl hWF₁.2.2.1 hWF₁.2.2.1
        cases hca : deleteOrphans rf₁ (findOrphans fs₁ (imagePaths (discover fs₀))) fs₁ with
        | error Ea =>
          obtain ⟨ea, fa, da⟩ := Ea
          cases hcb : deleteOrphans rf₂ (findOrphans fs₁ (imagePaths (discover fs₀))) fs₁ with
          | error Eb =>
            obtain ⟨eb, fb, db⟩ := Eb
            rw [hca, hcb] at hobs
            dsimp only [delObs] at hobs
            injection hobs with h₁ h₂
            injection h₂ with h₂ h₃
            injection h₁ with h₁
            dsimp only [obsOf]
            rw [h₁, h₂, h₃]
          | ok Qb =>
            obtain ⟨fb, db⟩ := Qb
            rw [hca, hcb] at hobs
            dsimp only [delObs] at hobs
            injection hobs with h₁ h₂
            cases h₁
        | ok Qa =>
          obtain ⟨fa, da⟩ := Qa
          cases hcb : deleteOrphans rf₂ (findOrphans fs₁ (imagePaths (discover fs₀))) fs₁ with
          | error Eb =>
            obtain ⟨eb, fb, db⟩ := Eb
            rw [hca, hcb] at hobs
            dsimp only [delObs] at hobs
            injection hobs with h₁ h₂
            cases h₁
          | ok Qb =>
            obtain ⟨fb, db⟩ := Qb
            rw [hca, hcb] at hobs
            dsimp only [delObs] at hobs
            injection hobs with h₁ h₂
            injection h₂ with h₂ h₃
            dsimp only [obsOf]
            rw [h₂, h₃]

theorem run_preserves_root (env : Env) (rf : Path → Bool) (s : FS)
    (hroot : [] ∈ s.outDirs) : [] ∈ (stateOf (run env rf s)).outDirs := by
  unfold run
  cases hsrc : s.srcExists with
  | false => exact hroot
  | true =>
    dsimp only [Bool.not_true]
    rw [if_neg (by simp)]
    cases hmk : mkdirParents env s [] with
    | error E =>
      obtain ⟨e, fsE⟩ := E
      have hst := @mkdirEach_any_state env (prefixesOf []) s
      unfold mkdirParents at hmk
      rw [hmk] at hst
      dsimp only [eachFS] at hst
      exact hst.2.1 hroot
    | ok fs₀ =>
      dsimp only
      have hst₀ := @mkdirEach_any_state env (prefixesOf []) s
      unfold mkdirParents at hmk
      rw [hmk] at hst₀
      dsimp only [eachFS] at hst₀
      have hroot₀ : [] ∈ fs₀.outDirs := hst₀.2.1 hroot
      have hlpm := (@processLoop_any_state env (discover fs₀) fs₀ 0 0 []).1
      cases hlp : processLoop env (discover fs₀) fs₀ 0 0 [] with
      | error E =>
        obtain ⟨e, fsE, pr, sk, ws⟩ := E
        rw [hlp] at hlpm
        dsimp only [loopFS] at hlpm
        exact hlpm hroot₀
      | ok Q =>
        obtain ⟨fs₁, pr, sk, ws⟩ := Q
        rw [hlp] at hlpm
        dsimp only [loopFS] at hlpm
        have hroot₁ : [] ∈ fs₁.outDirs := hlpm hroot₀
        dsimp only
        have hdm := (@deleteOrphans_state rf
          (findOrphans fs₁ (imagePaths (discover fs₀))) fs₁).2.2.1
        cases hdo : deleteOrphans rf (findOrphans fs₁ (imagePaths (discover fs₀))) fs₁ with
        | error E =>
          obtain ⟨e, fs₂, ds⟩ := E
          rw [hdo] at hdm
          dsimp only [delFS] at hdm
          exact hdm hroot₁
        | ok Q₂ =>
          obtain ⟨fs₂, ds⟩ := Q₂
          rw [hdo] at hdm
          dsimp only [delFS] at hdm
          exact hdm hroot₁

theorem run_done_no_orphan_files (s : FS) (hWF : WF s) {env : Env} {rf : Path → Bool}
    {r : RunReport} (hrun : run env rf s = RunOutcome.done r) :
    ∀ p, jsonName p = true → p ∉ imagePaths (discover s) →
      alookup r.fs.outFiles p = none := by
  obtain ⟨hsrc, fs₀, fs₁, pr, sk, ws, ds, hmk, hloop, hdel, hr⟩ := run_done_inv hrun
  obtain ⟨hWF₀, -, hsub₀, htake₀, -⟩ := mkdirParents_main hWF hmk
  have hdisc : discover fs₀ = discover s :=
    discover_congr (mkdirParents_fields hmk).2.1 (mkdirParents_fields hmk).2.2.1
  have hroot₁ : [] ∈ fs₁.outDirs := by
    have hlpm := (@processLoop_any_state env (discover fs₀) fs₀ 0 0 []).1
    rw [hloop] at hlpm
    dsimp only [loopFS] at hlpm
    exact hlpm (htake₀ 0 (by simp))
  intro p hpj hpimg
  rw [← hdisc] at hpimg
  by_cases hsome : (alookup fs₁.outFiles p).isSome = true
  · have hporph : p ∈ findOrphans fs₁ (imagePaths (discover fs₀)) :=
      mem_findOrphans.mpr ⟨decide_eq_true hroot₁,
        Or.inl (alookup_isSome_iff.mp hsome), hpj, hpimg⟩
    exact deleteOrphans_deleted hdel p hporph
  · have hnone : alookup fs₁.outFiles p = none := by
      cases halv : alookup fs₁.outFiles p with
      | none => rfl
      | some v =>
        rw [halv] at hsome
        exact absurd rfl hsome
    have := @deleteOrphans_none_mono rf
      (findOrphans fs₁ (imagePaths (discover fs₀))) fs₁ p hnone
    rw [hdel] at this
    exact this

/-! ## C4: orphan deletion and empty-directory pruning -/

/-- C4: on a well-formed output tree, after a completed run every .json
entry whose path is not the artifact path of a discovered document is
gone; no surviving nonroot ancestor directory of a deleted artifact is
empty (with a failure-free rmdir oracle); the output root is never
deleted, whatever the outcome; and a failing directory removal never
propagates: the outcome kind, exception, output files, counters, writes
and deletes do not depend on the rmdir oracle at all. -/
theorem orphan_cleanup_correct (s : FS) (hWF : WF s) :
    (∀ env rf r, run env rf s = RunOutcome.done r →
      (∀ p, jsonName p = true → p ∉ imagePaths (discover s) →
        alookup r.fs.outFiles p = none) ∧
      ((∀ x, rf x = false) → ∀ p ∈ r.deletes, ∀ k, 0 < k → k < p.length →
        p.take k ∈ r.fs.outDirs → hasChildEntry r.fs (p.take k) = true)) ∧
    (∀ env rf, [] ∈ s.outDirs → [] ∈ (stateOf (run env rf s)).outDirs) ∧
    (∀ env rf₁ rf₂, obsOf (run env rf₁ s) = obsOf (run env rf₂ s)) := by
  refine ⟨?_, fun env rf => run_preserves_root env rf s,
    fun env rf₁ rf₂ => run_obs_rf env s hWF rf₁ rf₂⟩
  intro env rf r hrun
  obtain ⟨hsrc, fs₀, fs₁, pr, sk, ws, ds, hmk, hloop, hdel, hr⟩ := run_done_inv hrun
  obtain ⟨hWF₀, -, hsub₀, htake₀, -⟩ := mkdirParents_main hWF hmk
  have hWF₁ : WF fs₁ := processLoop_WF hWF₀ hloop
  have hdisc : discover fs₀ = discover s :=
    discover_congr (mkdirParents_fields hmk).2.1 (mkdirParents_fields hmk).2.2.1
  have hroot₁ : [] ∈ fs₁.outDirs := by
    have hlpm := (@processLoop_any_state env (discover fs₀) fs₀ 0 0 []).1
    rw [hloop] at hlpm
    dsimp only [loopFS] at hlpm
    exact hlpm (htake₀ 0 (by simp))
  constructor
  · exact run_done_no_orphan_files s hWF hrun
  · intro hrf p hpdel k hk0 hklt hmem
    have hds : ds = findOrphans fs₁ (imagePaths (discover fs₀)) := deleteOrphans_log hdel
    have hpdel₂ : p ∈ findOrphans fs₁ (imagePaths (discover fs₀)) := by
      rw [← hds]
      rw [hr] at hpdel
      exact hpdel
    exact deleteOrphans_no_empty hrf (findOrphans fs₁ (imagePaths (discover fs₀)))
      fs₁ r.fs ds hWF₁ hdel p hpdel₂ k hk0 hklt hmem

/-- Witness for C4: the orphan old.json is removed from a concrete
well-formed output tree by a completed run. -/
theorem orphan_cleanup_correct_witness :
    WF fsC4W ∧ alookup (stateOf (run envId rfNone fsC4W)).outFiles ["old.json"] = none :=
  ⟨by decide,
    (orphan_cleanup_correct fsC4W (by decide)).1 envId rfNone rC4W rfl
      |>.1 ["old.json"] rfl (by decide)⟩

/-! ## Facts about the loop needed for idempotence -/

theorem shouldProcess_false_inv {env : Env} {fs : FS} {md ep : Path}
    (h : shouldProcess env fs md ep = .ok false) :
    ∃ A c, alookup fs.outFiles ep = some (FileData.json (Json.obj A)) ∧
      alookup fs.srcFiles md = some c ∧
      pyEqStr (objGet A "shasum") (env.hash c) = true := by
  unfold shouldProcess at h
  by_cases h₁ : (isFile fs ep || isDir fs ep) = true
  · rw [if_neg (by rw [h₁]; simp)] at h
    by_cases h₂ : isDir fs ep = true
    · rw [if_pos h₂] at h
      cases h
    · rw [if_neg h₂] at h
      cases hf : alookup fs.outFiles ep with
      | none =>
        rw [hf] at h
        cases h
      | some fd =>
        rw [hf] at h
        cases fd with
        | text raw => cases h
        | json v =>
          dsimp only at h
          cases hs : alookup fs.srcFiles md with
          | none =>
            rw [hs] at h
            cases h
          | some c =>
            rw [hs] at h
            cases v with
            | obj A =>
              dsimp only at h
              injection h with hb
              refine ⟨A, c, rfl, rfl, ?_⟩
              cases hpe : pyEqStr (objGet A "shasum") (env.hash c) with
              | false =>
                rw [hpe] at hb
                cases hb
              | true => rfl
            | null => cases h
            | bool b => cases h
            | num n => cases h
            | str str => cases h
            | arr xs => cases h
  · have h₂ : (isFile fs ep || isDir fs ep) = false := Bool.eq_false_iff.mpr h₁
    rw [if_pos (by rw [h₂]; rfl)] at h
    cases h

theorem shouldProcess_false_intro {env : Env} {fs : FS} {md ep : Path} {A : List (String × Json)}
    {c : String} (hart : alookup fs.outFiles ep = some (FileData.json (Json.obj A)))
    (hnd : ep ∉ fs.outDirs) (hsrc : alookup fs.srcFiles md = some c)
    (heq : pyEqStr (objGet A "shasum") (env.hash c) = true) :
    shouldProcess env fs md ep = .ok false := by
  have hfile : isFile fs ep = true := by
    unfold isFile
    rw [hart]
    rfl
  have hdir : isDir fs ep = false := by
    unfold isDir
    exact decide_eq_false hnd
  unfold shouldProcess
  rw [if_neg (by rw [hfile]; simp)]
  rw [hdir]
  rw [if_neg (by simp)]
  rw [hart]
  dsimp only
  rw [hsrc]
  dsimp only
  rw [heq]
  rfl

theorem artifactJson_obj {env : Env} {c : String} :
    ∃ A, artifactJson env c = Json.obj A ∧
      objGet A "shasum" = some (Json.str (env.hash c)) := by
  exact ⟨_, rfl, rfl⟩

theorem processLoop_docs_fact {env : Env} :
    ∀ (docs : List Path) (fs fs₁ : FS) (pr sk pr₁ sk₁ : Nat) (ws ws₁ : List Path),
      WF fs → (docs.map artifactPath).Nodup →
      processLoop env docs fs pr sk ws = .ok (fs₁, pr₁, sk₁, ws₁) →
      ∀ p ∈ docs, ∃ A c, alookup fs.srcFiles p = some c ∧
        alookup fs₁.outFiles (artifactPath p) = some (FileData.json (Json.obj A)) ∧
        pyEqStr (objGet A "shasum") (env.hash c) = true := by
  intro docs
  induction docs with
  | nil =>
    intro fs fs₁ pr sk pr₁ sk₁ ws ws₁ hWF hnd h x hx
    exact absurd hx (List.not_mem_nil x)
  | cons p rest ih =>
    intro fs fs₁ pr sk pr₁ sk₁ ws ws₁ hWF hnd h x hx
    have hnotin : artifactPath p ∉ rest.map artifactPath := by
      rw [List.map_cons, List.nodup_cons] at hnd
      exact hnd.1
    have hframe : ∀ fsx prx skx wsx fsy pry sky wsy,
        processLoop env rest fsx prx skx wsx = .ok (fsy, pry, sky, wsy) →
        alookup fsy.outFiles (artifactPath p) = alookup fsx.outFiles (artifactPath p) := by
      intro fsx prx skx wsx fsy pry sky wsy hlp
      have := (@processLoop_any_state env rest fsx prx skx wsx).2 (artifactPath p)
        (fun d hd he => hnotin (he ▸ List.mem_map_of_mem artifactPath hd))
      rw [hlp] at this
      exact this
    simp only [processLoop] at h
    cases hsp : shouldProcess env fs p (artifactPath p) with
    | error e =>
      rw [hsp] at h
      cases h
    | ok b =>
      rw [hsp] at h
      cases b with
      | false =>
        rcases List.mem_cons.mp hx with rfl | hx
        · obtain ⟨A, c, hart, hsrc, heq⟩ := shouldProcess_false_inv hsp
          refine ⟨A, c, hsrc, ?_, heq⟩
          rw [hframe fs pr (sk + 1) ws fs₁ pr₁ sk₁ ws₁ h]
          exact hart
        · exact ih fs fs₁ pr (sk + 1) pr₁ sk₁ ws ws₁ hWF
            (by rw [List.map_cons, List.nodup_cons] at hnd; exact hnd.2) h x hx
      | true =>
        cases hpd : processDoc env fs p with
        | error E =>
          rw [hpd] at h
          cases h
        | ok Q =>
          obtain ⟨fsm, w⟩ := Q
          rw [hpd] at h
          obtain ⟨hWFm, -, ⟨c, hc, hart⟩, -, -⟩ := processDoc_main hWF hpd
          have hsrcm : fsm.srcFiles = fs.srcFiles := (processDoc_src hpd).2.1
          rcases List.mem_cons.mp hx with rfl | hx
          · obtain ⟨A, hA, hAget⟩ := @artifactJson_obj env c
            refine ⟨A, c, hc, ?_, ?_⟩
            · rw [hframe fsm (pr + 1) sk (ws ++ [w]) fs₁ pr₁ sk₁ ws₁ h, hart, hA]
            · rw [hAget]
              exact decide_eq_true rfl
          · obtain ⟨A, c₂, hsrc₂, hart₂, heq₂⟩ := ih fsm fs₁ (pr + 1) sk pr₁ sk₁
              (ws ++ [w]) ws₁ hWFm
              (by rw [List.map_cons, List.nodup_cons] at hnd; exact hnd.2) h x hx
            rw [hsrcm] at hsrc₂
            exact ⟨A, c₂, hsrc₂, hart₂, heq₂⟩

theorem processLoop_all_skip {env : Env} :
    ∀ (docs : List Path) (fs : FS) (pr sk : Nat) (ws : List Path),
      (∀ p ∈ docs, shouldProcess env fs p (artifactPath p) = .ok false) →
      processLoop env docs fs pr sk ws = .ok (fs, pr, sk + docs.length, ws) := by
  intro docs
  induction docs with
  | nil =>
    intro fs pr sk ws hall
    rfl
  | cons p rest ih =>
    intro fs pr sk ws hall
    simp only [processLoop]
    rw [hall p (List.mem_cons_self p rest)]
    dsimp only
    rw [ih fs pr (sk + 1) ws (fun q hq => hall q (List.mem_cons_of_mem p hq))]
    have harith : sk + 1 + rest.length = sk + (rest.length + 1) := by omega
    rw [harith]
    rfl

theorem findOrphans_nil {fs : FS} {image : List Path}
    (hfiles : ∀ p ∈ fs.outFiles.map (fun z => z.1), jsonName p = true → p ∈ image)
    (hdirs : ∀ d ∈ fs.outDirs, jsonName d = false) :
    findOrphans fs image = [] := by
  unfold findOrphans
  by_cases hroot : isDir fs [] = true
  · rw [if_pos hroot]
    rw [List.filter_eq_nil_iff]
    intro a ha
    rcases List.mem_append.mp ha with ha | ha
    · rw [Bool.and_eq_true, Bool.not_eq_true', decide_eq_false_iff_not]
      rintro ⟨hj, hni⟩
      exact hni (hfiles a ha hj)
    · rw [Bool.and_eq_true]
      rintro ⟨hj, -⟩
      rw [hdirs a ha] at hj
      cases hj
  · rw [if_neg hroot]

theorem mkdir_root_noop {env : Env} {fs : FS} (h : [] ∈ fs.outDirs) :
    mkdirParents env fs [] = .ok fs := by
  have hdir : isDir fs [] = true := decide_eq_true h
  unfold mkdirParents
  rw [prefixesOf_nil]
  simp only [mkdirEach, mkdirOne, hdir]
  rfl

/-- Every json-named directory is gone from the final state of a
completed run whose discovered documents have pairwise distinct artifact
paths. -/
theorem run_done_no_json_dirs (s : FS) (hWF : WF s) {env : Env} {rf : Path → Bool}
    {r : RunReport} (hinj : (imagePaths (discover s)).Nodup)
    (hrun : run env rf s = RunOutcome.done r) :
    ∀ d ∈ r.fs.outDirs, jsonName d = false := by
  obtain ⟨hsrc, fs₀, fs₁, pr, sk, ws, ds, hmk, hloop, hdel, hr⟩ := run_done_inv hrun
  obtain ⟨hWF₀, -, hsub₀, htake₀, -⟩ := mkdirParents_main hWF hmk
  have hWF₁ : WF fs₁ := processLoop_WF hWF₀ hloop
  have hdisc : discover fs₀ = discover s :=
    discover_congr (mkdirParents_fields hmk).2.1 (mkdirParents_fields hmk).2.2.1
  have hroot₁ : [] ∈ fs₁.outDirs := by
    have hlpm := (@processLoop_any_state env (discover fs₀) fs₀ 0 0 []).1
    rw [hloop] at hlpm
    dsimp only [loopFS] at hlpm
    exact hlpm (htake₀ 0 (by simp))
  have hsub : r.fs.outDirs ⊆ fs₁.outDirs := by
    have h2 := (@deleteOrphans_state rf
      (findOrphans fs₁ (imagePaths (discover fs₀))) fs₁).2.1
    rw [hdel] at h2
    exact h2
  intro d hd
  cases hjd : jsonName d with
  | false => rfl
  | true =>
    exfalso
    by_cases himg : d ∈ imagePaths (discover fs₀)
    · obtain ⟨doc, hdoc, hde⟩ := List.mem_map.mp himg
      obtain ⟨A, c, -, hart, -⟩ := processLoop_docs_fact (discover fs₀) fs₀ fs₁
        0 0 pr sk [] ws hWF₀ (by rw [hdisc]; exact hinj) hloop doc hdoc
      have hkeys : artifactPath doc ∈ fs₁.outFiles.map (fun z => z.1) := by
        rw [← alookup_isSome_iff, hart]
        rfl
      exact hWF₁.2.2.1 (artifactPath doc) hkeys (hde ▸ hsub hd)
    · have horph : d ∈ findOrphans fs₁ (imagePaths (discover fs₀)) :=
        mem_findOrphans.mpr ⟨decide_eq_true hroot₁, Or.inr (hsub hd), hjd, himg⟩
      exact deleteOrphans_not_dir hdel d horph hd

/-! ## C3: the second run of an unchanged tree is a no-op -/

/-- C3 (amended): if a run completes and no two discovered documents
share an artifact path, then a second run over the unchanged source tree
performs zero writes and zero deletes, skips every document, and leaves
the filesystem exactly as the first run left it. -/
theorem idempotent_second_run (env : Env) (rf rf₂ : Path → Bool) (s : FS)
    (r₁ : RunReport) (hWF : WF s) (hinj : (imagePaths (discover s)).Nodup)
    (h₁ : run env rf s = RunOutcome.done r₁) :
    run env rf₂ r₁.fs = RunOutcome.done ⟨r₁.fs, 0, (discover s).length, [], []⟩ := by
  obtain ⟨hsrc, fs₀, fs₁, pr, sk, ws, ds, hmk, hloop, hdel, hr⟩ := run_done_inv h₁
  obtain ⟨hWF₀, hfm₀, hsub₀, htake₀, -⟩ := mkdirParents_main hWF hmk
  have hWF₁ : WF fs₁ := processLoop_WF hWF₀ hloop
  have hdisc₀ : discover fs₀ = discover s :=
    discover_congr (mkdirParents_fields hmk).2.1 (mkdirParents_fields hmk).2.2.1
  have hds := @deleteOrphans_state rf (findOrphans fs₁ (imagePaths (discover fs₀))) fs₁
  rw [hdel] at hds
  dsimp only [delFS, delDS] at hds
  have hlsrc := processLoop_src hloop
  have hmsrc := mkdirParents_fields hmk
  have hsrc₂ : r₁.fs.srcExists = true := by
    rw [hds.2.2.2.1, hlsrc.1, hmsrc.1, hsrc]
  have hFiles₂ : r₁.fs.srcFiles = s.srcFiles := by
    rw [hds.2.2.2.2.1, hlsrc.2.1, hmsrc.2.1]
  have hDirs₂ : r₁.fs.srcDirs = s.srcDirs := by
    rw [hds.2.2.2.2.2.1, hlsrc.2.2, hmsrc.2.2.1]
  have hdisc₂ : discover r₁.fs = discover s :=
    discover_congr hFiles₂ hDirs₂
  have hroot₁ : [] ∈ fs₁.outDirs := by
    have hlpm := (@processLoop_any_state env (discover fs₀) fs₀ 0 0 []).1
    rw [hloop] at hlpm
    dsimp only [loopFS] at hlpm
    exact hlpm (htake₀ 0 (by simp))
  have hrootR : [] ∈ r₁.fs.outDirs := hds.2.2.1 hroot₁
  have hWFr : WF r₁.fs := by
    have := @deleteOrphans_WF rf (findOrphans fs₁ (imagePaths (discover fs₀))) fs₁ hWF₁
    rw [hdel] at this
    exact this
  have hfact : ∀ p ∈ discover s, ∃ A c, alookup r₁.fs.srcFiles p = some c ∧
      alookup r₁.fs.outFiles (artifactPath p) = some (FileData.json (Json.obj A)) ∧
      pyEqStr (objGet A "shasum") (env.hash c) = true := by
    intro p hp
    have hp₀ : p ∈ discover fs₀ := by
      rw [hdisc₀]
      exact hp
    obtain ⟨A, c, hsrcp, hart, heq⟩ := processLoop_docs_fact (discover fs₀) fs₀ fs₁
      0 0 pr sk [] ws hWF₀ (by rw [hdisc₀]; exact hinj) hloop p hp₀
    have himg : artifactPath p ∈ imagePaths (discover fs₀) :=
      List.mem_map_of_mem artifactPath hp₀
    have hnotorph : artifactPath p ∉ findOrphans fs₁ (imagePaths (discover fs₀)) := by
      intro hmem
      exact (mem_findOrphans.mp hmem).2.2.2 himg
    have hfr := hds.1 (artifactPath p) hnotorph
    refine ⟨A, c, ?_, ?_, heq⟩
    · rw [hFiles₂, ← hmsrc.2.1, ← hlsrc.2.1]
      rw [← hlsrc.2.1] at hsrcp
      exact hsrcp
    · rw [hfr]
      exact hart
  have hallskip : ∀ p ∈ discover s, shouldProcess env r₁.fs p (artifactPath p) = .ok false := by
    intro p hp
    obtain ⟨A, c, hsrcp, hart, heq⟩ := hfact p hp
    apply shouldProcess_false_intro hart ?_ hsrcp heq
    apply hWFr.2.2.1 (artifactPath p)
    rw [← alookup_isSome_iff, hart]
    rfl
  have horph : findOrphans r₁.fs (imagePaths (discover s)) = [] := by
    apply findOrphans_nil
    · intro p hpk hpj
      by_contra hni
      have hnone := run_done_no_orphan_files s hWF h₁ p hpj hni
      rw [alookup_eq_none_iff] at hnone
      exact hnone hpk
    · exact run_done_no_json_dirs s hWF hinj h₁
  unfold run
  rw [hsrc₂]
  simp only [Bool.not_true, Bool.false_eq_true, if_false]
  rw [mkdir_root_noop hrootR]
  dsimp only
  rw [hdisc₂]
  rw [processLoop_all_skip (discover s) r₁.fs 0 0 [] hallskip]
  dsimp only
  rw [horph]
  simp only [deleteOrphans]
  rw [Nat.zero_add]

/-- C3 counterexample: with the source tree holding .md and .md.md (both
mapping to the artifact path .md.json) and no change between runs, the
first run completes but the second run performs two artifact writes, not
zero: each document finds the shared artifact holding the hash of the
other content. -/
theorem sync_twice_not_idempotent :
    (obsOf (run envId rfNone fsC3)).tag = 2 ∧
      (stateOf (run envId rfNone fsC3)).srcFiles = fsC3.srcFiles ∧
      writesOf (run envId rfNone (stateOf (run envId rfNone fsC3))) =
        [[".md.json"], [".md.json"]] :=
  ⟨rfl, rfl, rfl⟩

/-- Witness for the amended C3: a one-document tree whose second run
skips the document, writes nothing and deletes nothing. -/
theorem idempotent_second_run_witness :
    WF fsC3W ∧ (imagePaths (discover fsC3W)).Nodup ∧
      run envId rfNone fsC3W = RunOutcome.done rC3W ∧
      run envId rfNone rC3W.fs =
        RunOutcome.done ⟨rC3W.fs, 0, (discover fsC3W).length, [], []⟩ :=
  ⟨by decide, by decide, rfl,
    idempotent_second_run envId rfNone rfNone fsC3W rC3W (by decide) (by decide) rfl⟩

/-- Witness for C8 on the two-line document Hello / World. -/
theorem processed_artifact_fields_witness :
    processDoc envId fsC8 ["h.md"] = .ok (fsC8r, ["h.json"]) ∧
      ((["h.json"] : Path) = artifactPath ["h.md"] ∧
        (∃ fields,
          alookup fsC8r.outFiles (artifactPath ["h.md"]) =
            some (FileData.json (Json.obj fields)) ∧
          objGet fields "shasum" = some (Json.str (envId.hash "Hello\nWorld")) ∧
          objGet fields "headline" =
            some (Json.str (pyStrip (firstLine "Hello\nWorld"))) ∧
          objGet fields "embeddings" =
            some (Json.obj
              [(envId.modelName, Json.arr ((envId.embed "Hello\nWorld").map Json.num))])) ∧
        (("Hello\nWorld" : String) = "" → pyStrip (firstLine "Hello\nWorld") = "") ∧
        ((∀ ch ∈ ("Hello\nWorld" : String).data, ¬(ch = '\n')) →
          pyStrip (firstLine "Hello\nWorld") = pyStrip "Hello\nWorld")) :=
  ⟨rfl, processed_artifact_fields envId fsC8 fsC8r ["h.md"] ["h.json"] "Hello\nWorld" rfl rfl⟩

end BuildEmb
